import Mathlib

/-!
# Verification of the StellarisDefinitionsGenerator core

A shallow embedding of the repository's configuration-language parser
(`ParadoxParser`) and of the requirement-extraction and closure builders
(`CivicsBuilder`, `OriginsBuilder`, `TraitsBuilder`), with theorems settling
the specification claims about them.

JavaScript values produced and consumed by this code are modelled by the
inductive type `Value` below.  Numbers are carried as their lexer-validated
literal text (`Value.vNum`); no claim depends on numeric arithmetic.
JavaScript objects are modelled as insertion-ordered association lists with
unique keys (`setKey` keeps the original slot of an existing key, as a JS
property write does).
-/

namespace SDG

/-- A JavaScript value as produced by `ParadoxParser` and handled by the
builders: `null`, boolean, number (kept as its literal text), string, array,
or plain object (insertion-ordered fields). -/
inductive Value where
  | vNull : Value
  | vBool (b : Bool) : Value
  | vNum (lit : String) : Value
  | vStr (s : String) : Value
  | vList (xs : List Value) : Value
  | vObj (fields : List (String × Value)) : Value
deriving Repr, Inhabited

/-- Object lookup: the value at key `k`, reading the first matching field
(fields built by this development have unique keys). -/
def lookupField : List (String × Value) → String → Option Value
  | [], _ => none
  | (k', v) :: fs, k => if k' = k then some v else lookupField fs k

/-- JS property write `obj[k] = v`: replaces the value in the existing slot of
`k`, or appends a new field at the end (JS insertion order). -/
def setKey : List (String × Value) → String → Value → List (String × Value)
  | [], k, v => [(k, v)]
  | (k', v') :: fs, k, v =>
    if k' = k then (k', v) :: fs else (k', v') :: setKey fs k v

/-- JS property read `v.k`: only plain objects yield properties here
(`undefined`, modelled as `none`, otherwise).  A read on `null` throws in JS;
no code path reaches it, and it is modelled as `none`. -/
def getProp : Value → String → Option Value
  | .vObj fs, k => lookupField fs k
  | _, _ => none

/-- The shape test the lexer applies to a word: the regular expression
`-?\d+(\.\d+)?` (optional sign, digits, optional decimal part). -/
def numShape (cs : List Char) : Bool :=
  let cs := match cs with | '-' :: r => r | r => r
  let ds := cs.takeWhile Char.isDigit
  let r := cs.dropWhile Char.isDigit
  decide (ds ≠ []) &&
    (match r with
     | [] => true
     | '.' :: r2 => decide (r2 ≠ []) && r2.all Char.isDigit
     | _ => false)

/-- A numeric literal denotes a nonzero number: well shaped with some nonzero
digit.  (A malformed literal denotes `NaN`, which is falsy in JS.) -/
def numTruthy (cs : List Char) : Bool :=
  numShape cs && cs.any (fun c => c.isDigit && c ≠ '0')

/-- JS truthiness of a value. -/
def truthy : Value → Bool
  | .vNull => false
  | .vBool b => b
  | .vNum lit => numTruthy lit.toList
  | .vStr s => s ≠ ""
  | .vList _ => true
  | .vObj _ => true

/-- JS truthiness of a property-access result (`undefined` is falsy). -/
def truthyO : Option Value → Bool
  | none => false
  | some v => truthy v

mutual

/-- `_gather` (identical in `CivicsBuilder` and `OriginsBuilder`): the shared
recursive flattening primitive.  A string yields itself; an array concatenates
the gather of its elements; an object with a `value` field recurses only into
that (first) `value` field; any other object concatenates the gather of all
its values; anything else (null, boolean, number) yields nothing.
`gather_vObj_eq` below states the object case in the source's
lookup-then-dispatch form. -/
def gather : Value → List String
  | .vStr s => [s]
  | .vList xs => gatherList xs
  | .vObj fs => gatherObj fs
  | _ => []

/-- gather over the elements of an array. -/
def gatherList : List Value → List String
  | [] => []
  | v :: vs => gather v ++ gatherList vs

/-- gather over an object: the first `value` field wins; without one, all
field values are gathered and concatenated. -/
def gatherObj : List (String × Value) → List String
  | [] => []
  | (k, v) :: fs =>
    if k = "value" then gather v
    else if fs.any (fun e => e.1 = "value") then gatherObj fs
    else gather v ++ gatherFields fs

/-- gather over the values of an object's fields. -/
def gatherFields : List (String × Value) → List String
  | [] => []
  | (_, v) :: fs => gather v ++ gatherFields fs

end

/-- a field lookup succeeds exactly when some field has the key. -/
theorem lookupField_isSome (fs : List (String × Value)) (k : String) :
    (lookupField fs k).isSome = fs.any (fun e => e.1 = k) := by
  induction fs with
  | nil => simp [lookupField]
  | cons e rest ih =>
    simp only [lookupField, List.any_cons]
    by_cases h : e.1 = k
    · simp [h]
    · simp [h, ih]

/-- the object case of `gather` in the source's form: `'value' in x` recurses
only into `x.value`, otherwise all values are gathered. -/
theorem gather_vObj_eq (fs : List (String × Value)) :
    gather (.vObj fs) =
      match lookupField fs "value" with
      | some v => gather v
      | none => gatherFields fs := by
  show gatherObj fs = _
  induction fs with
  | nil => simp [gatherObj, lookupField, gatherFields]
  | cons e rest ih =>
    obtain ⟨k, v⟩ := e
    simp only [gatherObj, lookupField]
    by_cases hk : k = "value"
    · simp [hk]
    · simp only [hk, if_false]
      have hany := lookupField_isSome rest "value"
      cases hl : lookupField rest "value" with
      | some w =>
        have : rest.any (fun e => e.1 = "value") = true := by
          rw [← hany, hl]
          rfl
        simp only [this, if_true]
        rw [ih, hl]
      | none =>
        have : rest.any (fun e => e.1 = "value") = false := by
          rw [← hany, hl]
          rfl
        simp only [this, Bool.false_eq_true, if_false, gatherFields]

/-- gather of a property-access result (`_gather(undefined) = []`). -/
def gatherO : Option Value → List String
  | none => []
  | some v => gather v

/-! ## ParadoxParser: lexer -/

/-- A lexer token (`_tokenize`). -/
inductive Token where
  | lbrace : Token
  | rbrace : Token
  | eq : Token
  | str (s : String) : Token
  | num (lit : String) : Token
  | word (w : String) : Token
  | op (o : String) : Token
deriving Repr, DecidableEq, Inhabited

/-- The token's `value` field as a string (used when a comparison expression
is rendered). -/
def tokenText : Token → String
  | .lbrace => "\x7b"
  | .rbrace => "\x7d"
  | .eq => "="
  | .str s => s
  | .num lit => lit
  | .word w => w
  | .op o => o

/-- `text.replace(/\r\n?/g, '\n')`: newline normalisation done by `parse`. -/
def normNL : List Char → List Char
  | [] => []
  | '\r' :: '\n' :: rest => '\n' :: normNL rest
  | '\r' :: rest => '\n' :: normNL rest
  | c :: rest => c :: normNL rest

mutual

/-- `_stripComments`: removes `#` comments outside quoted strings.  `inQ` is
the quote state; `bs` counts the consecutive backslashes just before the
current position (an even count means a `"` toggles the quote state). -/
def stripC : List Char → Bool → Nat → List Char
  | [], _, _ => []
  | c :: rest, inQ, bs =>
    if c = '"' then
      '"' :: stripC rest (if bs % 2 = 0 then !inQ else inQ) 0
    else if !inQ && c = '#' then
      stripSkip rest
    else
      c :: stripC rest inQ (if c = '\\' then bs + 1 else 0)

/-- skip a comment up to and including its terminating newline (which is
preserved in the output). -/
def stripSkip : List Char → List Char
  | [] => []
  | '\n' :: rest => '\n' :: stripC rest false 0
  | _ :: rest => stripSkip rest

end

/-- whitespace for the lexer (JS `/\s/`, ASCII range; the sources contain no
exotic Unicode spaces). -/
def isWS (c : Char) : Bool :=
  c = ' ' || c = '\t' || c = '\n' || c = '\r' || c = '\x0b' || c = '\x0c'

/-- the lexer's `specials` set. -/
def isSpecial (c : Char) : Bool :=
  c = '\x7b' || c = '\x7d' || c = '=' || c = '>' || c = '<' || c = '!' || c = '"'

/-- a completed word token, reclassified as a number when it matches
`-?\d+(\.\d+)?`. -/
def mkWordTok (acc : List Char) : Token :=
  if numShape acc then .num (String.mk acc) else .word (String.mk acc)

mutual

/-- `_tokenize`: the character scanner, written as one pass over the input.
Each step of the JS `while` loop is one of the cases below: whitespace is
skipped; `{`, `}`, `=` are single tokens; `"` enters the quoted-string
reader; `>`, `<`, `!` optionally absorb a following `=` (`tokOp`); any other
character starts a word (`tokWord`). -/
def tokMain : List Char → List Token
  | [] => []
  | c :: rest =>
    if isWS c then tokMain rest
    else if c = '\x7b' then .lbrace :: tokMain rest
    else if c = '\x7d' then .rbrace :: tokMain rest
    else if c = '=' then .eq :: tokMain rest
    else if c = '"' then tokStr rest 0 []
    else if c = '>' || c = '<' || c = '!' then tokOp c rest
    else tokWord rest [c]

/-- emit a comparison operator `c`, absorbing one following `=`; scanning
then resumes on the remaining input (the resumed first step is spelled out so
that the recursion stays structural). -/
def tokOp : Char → List Char → List Token
  | c, [] => [.op (String.mk [c])]
  | c, '=' :: r2 => .op (String.mk [c, '=']) :: tokMain r2
  | c, c2 :: r2 =>
    .op (String.mk [c]) ::
      (if isWS c2 then tokMain r2
       else if c2 = '\x7b' then .lbrace :: tokMain r2
       else if c2 = '\x7d' then .rbrace :: tokMain r2
       else if c2 = '=' then .eq :: tokMain r2
       else if c2 = '"' then tokStr r2 0 []
       else if c2 = '>' || c2 = '<' || c2 = '!' then tokOp c2 r2
       else tokWord r2 [c2])

/-- the quoted-string reader: consume until a `"` preceded by an even number
of backslashes, keeping the raw characters (backslashes included); reaching
end-of-input emits the accumulated text (truncated-quote recovery).  `bs`
counts the consecutive backslashes just before the current position. -/
def tokStr : List Char → Nat → List Char → List Token
  | [], _, acc => [.str (String.mk acc)]
  | c :: rest, bs, acc =>
    if c = '"' then
      if bs % 2 = 0 then .str (String.mk acc) :: tokMain rest
      else tokStr rest 0 (acc ++ [c])
    else tokStr rest (if c = '\\' then bs + 1 else 0) (acc ++ [c])

/-- the word reader: accumulate until whitespace or a special character, then
emit the word and handle the terminating character exactly as `tokMain`
would. -/
def tokWord : List Char → List Char → List Token
  | [], acc => [mkWordTok acc]
  | c :: rest, acc =>
    if isWS c then mkWordTok acc :: tokMain rest
    else if c = '\x7b' then mkWordTok acc :: .lbrace :: tokMain rest
    else if c = '\x7d' then mkWordTok acc :: .rbrace :: tokMain rest
    else if c = '=' then mkWordTok acc :: .eq :: tokMain rest
    else if c = '"' then mkWordTok acc :: tokStr rest 0 []
    else if c = '>' || c = '<' || c = '!' then mkWordTok acc :: tokOp c rest
    else tokWord rest (acc ++ [c])

end

/-- `_tokenize` on a character list. -/
def tokenize (cs : List Char) : List Token := tokMain cs

/-! ## ParadoxParser: parser -/

/-- `_assign`: duplicate-key coalescing.  A key that already exists has its
single value converted into a two-element sequence (unless it is already a
sequence) and the new value appended; a fresh key is bound directly. -/
def jsAssign (obj : List (String × Value)) (k : String) (v : Value) :
    List (String × Value) :=
  match lookupField obj k with
  | some (.vList xs) => setKey obj k (.vList (xs ++ [v]))
  | some old => setKey obj k (.vList [old, v])
  | none => obj ++ [(k, v)]

/-- `Array.isArray`, the branch test inside `_assign`. -/
def jsIsArray : Value → Bool
  | .vList _ => true
  | _ => false

/-- End-of-block resolution in `_parseBlock`: a block with no keyed entries is
its bare-item list; otherwise the mapping, with a non-empty bare-item list
attached under the reserved key `items` (a JS property write, so a
source-assigned `items` key is overwritten). -/
def resolveBlock (obj : List (String × Value)) (list : List Value) : Value :=
  if obj.isEmpty then .vList list
  else if list.isEmpty then .vObj obj
  else .vObj (setKey obj "items" (.vList list))

/-- `_parseValue` on a word token: `yes`/`no` become booleans. -/
def wordValue (w : String) : Value :=
  if w = "yes" then .vBool true else if w = "no" then .vBool false else .vStr w

mutual

/-- `_parseValue`, with explicit fuel (decremented on every recursive step;
the JS original recurses without bound checks).  `none` is fuel exhaustion
only — `jsParse_total` shows it never happens with fuel beyond the token
count. -/
def jsParseValue : Nat → List Token → Option (Value × List Token)
  | 0, _ => none
  | _ + 1, [] => some (.vNull, [])
  | fuel + 1, t :: rest =>
    match t with
    | .lbrace =>
      match jsParseBlockRaw fuel [] [] rest with
      | none => none
      | some (ol, r) => some (resolveBlock ol.1 ol.2, r)
    | .str s => some (.vStr s, rest)
    | .num lit => some (.vNum lit, rest)
    | .word w => some (wordValue w, rest)
    | .op o => some (.vStr o, rest)
    | .rbrace => some (.vStr "\x7d", rest)
    | .eq => some (.vStr "=", rest)

/-- The scanning loop of `_parseBlock`, accumulating the keyed entries `obj`
and the bare items `list`; returns both at the matching `}` or at end of
input (implicit close). -/
def jsParseBlockRaw : Nat → List (String × Value) → List Value → List Token →
    Option ((List (String × Value) × List Value) × List Token)
  | 0, _, _, _ => none
  | _ + 1, obj, list, [] => some ((obj, list), [])
  | _ + 1, obj, list, .rbrace :: rest => some ((obj, list), rest)
  | fuel + 1, obj, list, .word name :: rest =>
    match rest with
    | .eq :: rest2 =>
      match jsParseValue fuel rest2 with
      | none => none
      | some (v, r) => jsParseBlockRaw fuel (jsAssign obj name v) list r
    | .op o :: rest2 =>
      match rest2 with
      | [] => jsParseBlockRaw fuel obj (list ++ [.vStr (name ++ " " ++ o)]) []
      | .str s :: rest3 =>
        jsParseBlockRaw fuel obj
          (list ++ [.vStr (name ++ " " ++ o ++ " \"" ++ s ++ "\"")]) rest3
      | t2 :: rest3 =>
        jsParseBlockRaw fuel obj
          (list ++ [.vStr (name ++ " " ++ o ++ " " ++ tokenText t2)]) rest3
    | .lbrace :: rest2 =>
      -- `name { ... }` without `=`: `_parseValue` sees the `{`, consumes it
      -- and parses the nested block; treated as an assignment
      match jsParseBlockRaw fuel [] [] rest2 with
      | none => none
      | some (ol, r) =>
        jsParseBlockRaw fuel (jsAssign obj name (resolveBlock ol.1 ol.2)) list r
    | _ => jsParseBlockRaw fuel obj (list ++ [.vStr name]) rest
  | fuel + 1, obj, list, .lbrace :: rest =>
    -- nested anonymous block: `_parseValue` consumes the `{` and parses it
    match jsParseBlockRaw fuel [] [] rest with
    | none => none
    | some (ol, r) =>
      jsParseBlockRaw fuel obj (list ++ [resolveBlock ol.1 ol.2]) r
  | fuel + 1, obj, list, .str s :: rest =>
    jsParseBlockRaw fuel obj (list ++ [.vStr s]) rest
  | fuel + 1, obj, list, .num lit :: rest =>
    jsParseBlockRaw fuel obj (list ++ [.vNum lit]) rest
  | fuel + 1, obj, list, .op o :: rest =>
    jsParseBlockRaw fuel obj (list ++ [.vStr o]) rest
  | fuel + 1, obj, list, .eq :: rest =>
    jsParseBlockRaw fuel obj (list ++ [.vStr "="]) rest

end

/-- The top-level loop of `parse`: non-word tokens are skipped; `name = value`
assigns via `_assign`; a bare top-level word is assigned `true`. -/
def jsParseTop : Nat → List (String × Value) → List Token →
    Option (List (String × Value))
  | 0, _, _ => none
  | _ + 1, out, [] => some out
  | fuel + 1, out, t :: rest =>
    match t with
    | .word name =>
      match rest with
      | .eq :: rest2 =>
        match jsParseValue fuel rest2 with
        | none => none
        | some (v, r) => jsParseTop fuel (jsAssign out name v) r
      | _ => jsParseTop fuel (jsAssign out name (.vBool true)) rest
    | _ => jsParseTop fuel out rest

/-- `ParadoxParser.parse` up to the fuel guard: normalise newlines, strip
comments, tokenize, then run the top-level loop with enough fuel. -/
def parseChars (cs : List Char) : Option (List (String × Value)) :=
  let toks := tokenize (stripC (normNL cs) false 0)
  jsParseTop (toks.length + 1) [] toks

/-- `ParadoxParser.parse` on a string. -/
def parse (s : String) : List (String × Value) :=
  (parseChars s.toList).getD []

/-! ## Shared builder helpers -/

/-- Generic association-list lookup (JS property read on objects holding
builder artifacts). -/
def lookupA {α : Type} : List (String × α) → String → Option α
  | [], _ => none
  | (k', v) :: fs, k => if k' = k then some v else lookupA fs k

/-- Generic JS property write (same slot semantics as `setKey`). -/
def setKeyA {α : Type} : List (String × α) → String → α → List (String × α)
  | [], k, v => [(k, v)]
  | (k', v') :: fs, k, v =>
    if k' = k then (k', v) :: fs else (k', v') :: setKeyA fs k v

/-- `Object.entries`: an object's fields; an array's index/element pairs; a
string's index/character pairs; empty for primitives. -/
def jsEntries : Value → List (String × Value)
  | .vObj fs => fs
  | .vList xs => xs.enum.map (fun p => (toString p.1, p.2))
  | .vStr s => s.toList.enum.map (fun p => (toString p.1, Value.vStr (String.mk [p.2])))
  | _ => []

/-- The duck-typed normalisation in `_extractReqs` (and for `origin` blocks in
`_extractOriginRestrictions`): an array whose first element is a non-null,
non-array object is a list of blocks from duplicate keys; anything else is a
single block. -/
def normVals (v : Value) : List Value :=
  match v with
  | .vList (x :: xs) =>
    match x with
    | .vObj _ => x :: xs
    | _ => [v]
  | _ => [v]

/-- `NOT` (or any node) viewed as "an object or an array of objects". -/
def jsNotBlocks (nb : Value) : List Value :=
  match nb with
  | .vList xs => xs
  | _ => [nb]

/-- JS `typeof x === 'object'` (true for plain objects, arrays and `null`). -/
def isObjTypeof : Value → Bool
  | .vObj _ => true
  | .vList _ => true
  | .vNull => true
  | _ => false

/-- `if (filterFn && !filterFn(name, data))`: an optional filter skips an
entry when it is supplied and rejects the entry. -/
def filterSkip (fn : Option (String → Value → Bool)) (e : String × Value) : Bool :=
  match fn with
  | some f => !(f e.1 e.2)
  | none => false

/-- `[...new Set(arr)]` on the extraction arrays: strings (and other
primitives) deduplicate by value, keeping the first occurrence.  Arrays and
objects compare by reference in a JS `Set`, and every array element of these
lists is freshly allocated by `_gather`, so they are all kept.  (Number
elements never occur in the deduplicated lists; their literal comparison here
is unused.) -/
def isPrimV : Value → Bool
  | .vList _ => false
  | .vObj _ => false
  | _ => true

/-- value equality of primitive JS values (`SameValueZero` restricted to the
primitives occurring here). -/
def primEq : Value → Value → Bool
  | .vNull, .vNull => true
  | .vBool a, .vBool b => a = b
  | .vNum a, .vNum b => a = b
  | .vStr a, .vStr b => a = b
  | _, _ => false

/-- worker for `jsSetDedup`, carrying the primitives already seen. -/
def jsSetDedupGo : List Value → List Value → List Value
  | [], _ => []
  | v :: rest, seen =>
    if isPrimV v then
      if seen.any (primEq v) then jsSetDedupGo rest seen
      else v :: jsSetDedupGo rest (v :: seen)
    else v :: jsSetDedupGo rest seen

/-- `[...new Set(arr)]` on a mixed atom/group extraction array. -/
def jsSetDedup (l : List Value) : List Value := jsSetDedupGo l []

/-- worker for `dedupStr`. -/
def dedupStrGo : List String → List String → List String
  | [], _ => []
  | s :: rest, seen =>
    if s ∈ seen then dedupStrGo rest seen else s :: dedupStrGo rest (s :: seen)

/-- `[...new Set(arr)]` on a string array (the forbidden lists). -/
def dedupStr (l : List String) : List String := dedupStrGo l []

/-- the `OR` step of `_handle`: each non-empty gathered group is pushed as a
single array element. -/
def handleOrPart (block : Value) (yesArr : List Value) : List Value :=
  match getProp block "OR" with
  | some (.vList orBlocks) =>
    orBlocks.foldl (fun acc og =>
      let g := gather og
      if g.isEmpty then acc else acc ++ [Value.vList (g.map Value.vStr)]) yesArr
  | some orB =>
    if truthy orB then
      let g := gather orB
      if g.isEmpty then yesArr else yesArr ++ [Value.vList (g.map Value.vStr)]
    else yesArr
  | none => yesArr

/-- the `OR` step of `_handleCulture`: every gathered group is spread into
individual elements. -/
def cultureOrPart (block : Value) (yesArr : List Value) : List Value :=
  match getProp block "OR" with
  | some (.vList orBlocks) =>
    orBlocks.foldl (fun acc og => acc ++ (gather og).map Value.vStr) yesArr
  | some orB =>
    if truthy orB then yesArr ++ (gather orB).map Value.vStr else yesArr
  | none => yesArr

/-- the `NOR` then `NOT` steps (shared by `_handle` and `_handleCulture`). -/
def handleNorNotPart (block : Value) (noArr : List String) : List String :=
  let no1 :=
    match getProp block "NOR" with
    | some norB => if truthy norB then noArr ++ gather norB else noArr
    | none => noArr
  match getProp block "NOT" with
  | some notB => if truthy notB then no1 ++ gather notB else no1
  | none => no1

/-- the `value` step (shared): gathered identifiers pushed as bare atoms. -/
def handleValuePart (block : Value) (yesArr : List Value) : List Value :=
  match getProp block "value" with
  | some valB => if truthy valB then yesArr ++ (gather valB).map Value.vStr else yesArr
  | none => yesArr

/-- `_handle` (textually identical in `CivicsBuilder` and `OriginsBuilder`):
a falsy block is ignored; otherwise the `OR` groups are pushed whole, the
`NOR`/`NOT` identifiers extend the forbidden list, and the `value`
identifiers are pushed as bare atoms. -/
def jsHandle (block : Value) (yesArr : List Value) (noArr : List String) :
    List Value × List String :=
  if truthy block = false then (yesArr, noArr) else
  (handleValuePart block (handleOrPart block yesArr),
   handleNorNotPart block noArr)

/-- `_handleCulture` (textually identical in both builders): like `_handle`
but `OR` groups are spread into individual required atoms. -/
def jsHandleCulture (block : Value) (yesArr : List Value) (noArr : List String) :
    List Value × List String :=
  if truthy block = false then (yesArr, noArr) else
  (handleValuePart block (cultureOrPart block yesArr),
   handleNorNotPart block noArr)

/-! ## CivicsBuilder -/

/-- The per-facet lists of `CivicsBuilder` (`species_class` keys alias to the
`species_archetype` facet there). -/
structure CFacets (α : Type) where
  authorities : List α
  civics : List α
  ethics : List α
  species_archetype : List α
  culture : List α
deriving Repr

/-- empty facet record. -/
def emptyC {α : Type} : CFacets α := ⟨[], [], [], [], []⟩

/-- A civic's emitted requirement set (`{ yes, no }`). -/
structure CDef where
  yes : CFacets Value
  no : CFacets String
deriving Repr

/-- One key dispatch of `CivicsBuilder._extractReqs`. -/
def civicsStep (yn : CFacets Value × CFacets String) (k : String) (v : Value) :
    CFacets Value × CFacets String :=
  if k = "ethics" then
    let r := jsHandle v yn.1.ethics yn.2.ethics
    ({ yn.1 with ethics := r.1 }, { yn.2 with ethics := r.2 })
  else if k = "authority" ∨ k = "authorities" then
    let r := jsHandle v yn.1.authorities yn.2.authorities
    ({ yn.1 with authorities := r.1 }, { yn.2 with authorities := r.2 })
  else if k = "civics" then
    let r := jsHandle v yn.1.civics yn.2.civics
    ({ yn.1 with civics := r.1 }, { yn.2 with civics := r.2 })
  else if k = "species_archetype" ∨ k = "species_archetypes" then
    let r := jsHandle v yn.1.species_archetype yn.2.species_archetype
    ({ yn.1 with species_archetype := r.1 }, { yn.2 with species_archetype := r.2 })
  else if k = "species_class" then
    -- civics also use species_class for the species_archetype facet
    let r := jsHandle v yn.1.species_archetype yn.2.species_archetype
    ({ yn.1 with species_archetype := r.1 }, { yn.2 with species_archetype := r.2 })
  else if k = "graphical_culture" then
    let r := jsHandleCulture v yn.1.culture yn.2.culture
    ({ yn.1 with culture := r.1 }, { yn.2 with culture := r.2 })
  else yn

/-- `CivicsBuilder._extractReqs` over one condition node. -/
def civicsExtractReqs (node : Value) (yn : CFacets Value × CFacets String) :
    CFacets Value × CFacets String :=
  (jsEntries node).foldl
    (fun yn kv => (normVals kv.2).foldl (fun yn v => civicsStep yn kv.1 v) yn) yn

/-- `CivicsBuilder._requiresNoDLC`: a truthy `playable` block whose truthy
`NOT` node (object or array of objects) contains an object with a truthy
`host_has_dlc` property. -/
def requiresNoDLC (civicData : Value) : Bool :=
  match getProp civicData "playable" with
  | none => false
  | some playable =>
    if truthy playable = false then false
    else
      match getProp playable "NOT" with
      | some nb =>
        if truthy nb then
          (jsNotBlocks nb).any
            (fun b => isObjTypeof b && truthyO (getProp b "host_has_dlc"))
        else false
      | none => false

/-- One civic's extraction and deduplication (`CivicsBuilder.build`, loop
body after the skip checks). -/
def civicsBuildEntry (civicData : Value) : CDef :=
  let yn0 : CFacets Value × CFacets String := (emptyC, emptyC)
  let yn1 :=
    match getProp civicData "potential" with
    | some p => if truthy p then civicsExtractReqs p yn0 else yn0
    | none => yn0
  let yn2 :=
    match getProp civicData "possible" with
    | some p =>
      if truthy p then
        match p with
        | .vList blocks => blocks.foldl (fun yn b => civicsExtractReqs b yn) yn1
        | _ => civicsExtractReqs p yn1
      else yn1
    | none => yn1
  { yes := ⟨jsSetDedup yn2.1.authorities, jsSetDedup yn2.1.civics,
            jsSetDedup yn2.1.ethics, jsSetDedup yn2.1.species_archetype,
            jsSetDedup yn2.1.culture⟩,
    no := ⟨dedupStr yn2.2.authorities, dedupStr yn2.2.civics,
           dedupStr yn2.2.ethics, dedupStr yn2.2.species_archetype,
           dedupStr yn2.2.culture⟩ }

/-- An insertion-ordered JS `Map` from entity name to a JS `Set` of entity
names (the incompatibility accumulator of the closure passes). -/
structure SMap where
  entries : List (String × List String)
deriving Repr

/-- `Map.has`. -/
def SMap.has (m : SMap) (k : String) : Bool := (lookupA m.entries k).isSome

/-- the `Set` at `k` (empty when absent; only read after `has`). -/
def SMap.get (m : SMap) (k : String) : List String := (lookupA m.entries k).getD []

/-- `if (!m.has(k)) m.set(k, new Set())`. -/
def SMap.ensure (m : SMap) (k : String) : SMap :=
  if m.has k then m else ⟨m.entries ++ [(k, [])]⟩

/-- `m.get(k).add(v)` (the key is always present at the call sites; absent
keys make this a no-op where JS would throw). -/
def SMap.add (m : SMap) (k v : String) : SMap :=
  ⟨m.entries.map (fun e =>
    (e.1, if e.1 = k then (if v ∈ e.2 then e.2 else e.2 ++ [v]) else e.2))⟩

/-- JS default `sort()` compares strings as UTF-16 code-unit sequences; for
the ASCII identifiers here this is codepoint order. -/
def charListLe : List Char → List Char → Bool
  | [], _ => true
  | _ :: _, [] => false
  | a :: as, b :: bs => if a = b then charListLe as bs else decide (a < b)

/-- string comparison for the JS default sort. -/
def strLeB (a b : String) : Bool := charListLe a.toList b.toList

/-- insert into a sorted list. -/
def sortInsert (x : String) : List String → List String
  | [] => [x]
  | y :: ys => if strLeB x y then x :: y :: ys else y :: sortInsert x ys

/-- `Array.from(set).sort()` (insertion sort; JS string order). -/
def sortStrings : List String → List String
  | [] => []
  | x :: xs => sortInsert x (sortStrings xs)

/-- First pass of `CivicsBuilder._makeBidirectional`: every civic gets an
entry, and each declared forbidden civic is recorded in both directions. -/
def cPass1 (defs : List (String × CDef)) : SMap :=
  defs.foldl
    (fun m e =>
      (e.2.no.civics).foldl
        (fun m f => ((m.add e.1 f).ensure f).add f e.1)
        (m.ensure e.1))
    ⟨[]⟩

/-- `CivicsBuilder._makeBidirectional`: collect, then rewrite each civic's
forbidden-civics list as the sorted contents of its set. -/
def civicsMakeBidirectional (defs : List (String × CDef)) : List (String × CDef) :=
  let m := cPass1 defs
  defs.map (fun e =>
    (e.1, if m.has e.1 then
      { e.2 with no := { e.2.no with civics := sortStrings (m.get e.1) } }
    else e.2))

/-- The entry-collection loop of `CivicsBuilder.build` (everything before
`_makeBidirectional`). -/
def civicsFirstPass (civicsFile : List (String × Value))
    (filterFn : Option (String → Value → Bool)) : List (String × CDef) :=
  civicsFile.foldl
    (fun defs e =>
      if requiresNoDLC e.2 then defs
      else if filterSkip filterFn e then defs
      else setKeyA defs e.1 (civicsBuildEntry e.2))
    []

/-- `CivicsBuilder.build`. -/
def civicsBuild (civicsFile : List (String × Value))
    (filterFn : Option (String → Value → Bool)) : List (String × CDef) :=
  civicsMakeBidirectional (civicsFirstPass civicsFile filterFn)

/-! ## OriginsBuilder -/

/-- The per-facet lists of `OriginsBuilder` (here `species_class` is its own
facet, next to `species_archetype`). -/
structure OFacets (α : Type) where
  authorities : List α
  civics : List α
  ethics : List α
  species_class : List α
  species_archetype : List α
  culture : List α
deriving Repr

/-- empty origin facet record. -/
def emptyO {α : Type} : OFacets α := ⟨[], [], [], [], [], []⟩

/-- An origin's emitted requirement set. -/
structure ODef where
  yes : OFacets Value
  no : OFacets String
deriving Repr

/-- One key dispatch of `OriginsBuilder._extractReqs` (no
`species_archetypes` alias here; `species_class` is separate). -/
def originsStep (yn : OFacets Value × OFacets String) (k : String) (v : Value) :
    OFacets Value × OFacets String :=
  if k = "ethics" then
    let r := jsHandle v yn.1.ethics yn.2.ethics
    ({ yn.1 with ethics := r.1 }, { yn.2 with ethics := r.2 })
  else if k = "authority" ∨ k = "authorities" then
    let r := jsHandle v yn.1.authorities yn.2.authorities
    ({ yn.1 with authorities := r.1 }, { yn.2 with authorities := r.2 })
  else if k = "civics" then
    let r := jsHandle v yn.1.civics yn.2.civics
    ({ yn.1 with civics := r.1 }, { yn.2 with civics := r.2 })
  else if k = "species_class" then
    let r := jsHandle v yn.1.species_class yn.2.species_class
    ({ yn.1 with species_class := r.1 }, { yn.2 with species_class := r.2 })
  else if k = "species_archetype" then
    let r := jsHandle v yn.1.species_archetype yn.2.species_archetype
    ({ yn.1 with species_archetype := r.1 }, { yn.2 with species_archetype := r.2 })
  else if k = "graphical_culture" then
    let r := jsHandleCulture v yn.1.culture yn.2.culture
    ({ yn.1 with culture := r.1 }, { yn.2 with culture := r.2 })
  else yn

/-- `OriginsBuilder._extractReqs` over one condition node. -/
def originsExtractReqs (node : Value) (yn : OFacets Value × OFacets String) :
    OFacets Value × OFacets String :=
  (jsEntries node).foldl
    (fun yn kv => (normVals kv.2).foldl (fun yn v => originsStep yn kv.1 v) yn) yn

/-- `OriginsBuilder._extractTraitRequirements`: each force-added trait found in
the lookup contributes its `allowed_archetypes` as one required group. -/
def extractTraitReqs (traitsBlock : Value) (yes : OFacets Value)
    (traitsLookup : List (String × Value)) : OFacets Value :=
  (gatherO (getProp traitsBlock "trait")).foldl
    (fun yes tid =>
      let td := lookupField traitsLookup tid
      if truthyO td = false then yes
      else
        match td with
        | some tdata =>
          (match getProp tdata "allowed_archetypes" with
           | some aa =>
             if truthy aa then
               { yes with species_archetype := yes.species_archetype ++
                   [match aa with
                    | .vList xs => Value.vList xs
                    | _ => Value.vList [aa]] }
             else yes
           | none => yes)
        | none => yes)
    yes

/-- `OriginsBuilder._flattenSingleElementGroups` on one list: a one-element
array element is replaced by its single element. -/
def flatten1 (l : List Value) : List Value :=
  l.map (fun item =>
    match item with
    | .vList [x] => x
    | _ => item)

/-- `_flattenSingleElementGroups` over all required facets. -/
def flattenYes (yes : OFacets Value) : OFacets Value :=
  ⟨flatten1 yes.authorities, flatten1 yes.civics, flatten1 yes.ethics,
   flatten1 yes.species_class, flatten1 yes.species_archetype,
   flatten1 yes.culture⟩

/-- One origin's extraction, deduplication, trait inheritance and flattening
(`OriginsBuilder.build`, loop body after the filter check). -/
def originsBuildEntry (originData : Value)
    (traitsLookup : Option (List (String × Value))) : ODef :=
  let yn0 : OFacets Value × OFacets String := (emptyO, emptyO)
  let yn1 :=
    match getProp originData "potential" with
    | some p =>
      if truthy p then
        match p with
        | .vList blocks => blocks.foldl (fun yn b => originsExtractReqs b yn) yn0
        | _ => originsExtractReqs p yn0
      else yn0
    | none => yn0
  let yn2 :=
    match getProp originData "possible" with
    | some p =>
      if truthy p then
        match p with
        | .vList blocks => blocks.foldl (fun yn b => originsExtractReqs b yn) yn1
        | _ => originsExtractReqs p yn1
      else yn1
    | none => yn1
  let dyes : OFacets Value :=
    ⟨jsSetDedup yn2.1.authorities, jsSetDedup yn2.1.civics,
     jsSetDedup yn2.1.ethics, jsSetDedup yn2.1.species_class,
     jsSetDedup yn2.1.species_archetype, jsSetDedup yn2.1.culture⟩
  let dno : OFacets String :=
    ⟨dedupStr yn2.2.authorities, dedupStr yn2.2.civics,
     dedupStr yn2.2.ethics, dedupStr yn2.2.species_class,
     dedupStr yn2.2.species_archetype, dedupStr yn2.2.culture⟩
  let wyes :=
    match getProp originData "traits", traitsLookup with
    | some tb, some tl => if truthy tb then extractTraitReqs tb dyes tl else dyes
    | _, _ => dyes
  { yes := flattenYes wyes, no := dno }

/-- `OriginsBuilder._extractForbiddenValues`: identifiers gathered from a
truthy `NOT` node, then from each block of a truthy `NOR` node. -/
def extractForbiddenValues (block : Value) : List String :=
  let fromNot :=
    match getProp block "NOT" with
    | some nb => if truthy nb then gather nb else []
    | none => []
  let fromNor :=
    match getProp block "NOR" with
    | some nor =>
      if truthy nor then
        (jsNotBlocks nor).foldl (fun acc b => acc ++ gather b) []
      else []
    | none => []
  fromNot ++ fromNor

/-- `OriginsBuilder._extractOriginRestrictions`: forbidden origins found in a
civic's truthy `potential.origin` node and in the `origin` node of each of its
truthy `possible` blocks (normalising duplicate-key arrays). -/
def extractOriginRestrictions (civicData : Value) : List String :=
  let fromPotential :=
    match getProp civicData "potential" with
    | some p =>
      if truthy p then
        match getProp p "origin" with
        | some ob => if truthy ob then extractForbiddenValues ob else []
        | none => []
      else []
    | none => []
  let possibleBlocks :=
    match getProp civicData "possible" with
    | some (.vList bs) => bs
    | some p => if truthy p then [p] else []
    | none => []
  let fromPossible := possibleBlocks.foldl
    (fun acc poss =>
      if truthy poss then
        match getProp poss "origin" with
        | some ob =>
          if truthy ob then
            acc ++ (normVals ob).foldl (fun a b => a ++ extractForbiddenValues b) []
          else acc
        | none => acc
      else acc)
    []
  fromPotential ++ fromPossible

/-- First pass of `OriginsBuilder._makeBidirectional`: every origin gets an
entry seeded with its own declared forbidden civics (no reverse entries
here). -/
def oPass1 (defs : List (String × ODef)) : SMap :=
  defs.foldl
    (fun m e =>
      (e.2.no.civics).foldl (fun m f => m.add e.1 f) (m.ensure e.1))
    ⟨[]⟩

/-- Second pass: scan the civics files; each civic is added to the set of
every origin it forbids, provided that origin has an entry. -/
def oPass2 (m : SMap) (civicsFiles : List (List (String × Value))) : SMap :=
  civicsFiles.foldl
    (fun m file =>
      file.foldl
        (fun m e =>
          (extractOriginRestrictions e.2).foldl
            (fun m originName =>
              if m.has originName then m.add originName e.1 else m)
            m)
        m)
    m

/-- `OriginsBuilder._makeBidirectional`. -/
def originsMakeBidirectional (defs : List (String × ODef))
    (civicsFiles : List (List (String × Value))) : List (String × ODef) :=
  let m := oPass2 (oPass1 defs) civicsFiles
  defs.map (fun e =>
    (e.1, if m.has e.1 then
      { e.2 with no := { e.2.no with civics := sortStrings (m.get e.1) } }
    else e.2))

/-- The entry-collection loop of `OriginsBuilder.build` (everything before
`_makeBidirectional`). -/
def originsFirstPass (originsFile : List (String × Value))
    (filterFn : Option (String → Value → Bool))
    (traitsLookup : Option (List (String × Value))) : List (String × ODef) :=
  originsFile.foldl
    (fun defs e =>
      if filterSkip filterFn e then defs
      else setKeyA defs e.1 (originsBuildEntry e.2 traitsLookup))
    []

/-- `OriginsBuilder.build`. -/
def originsBuild (originsFile : List (String × Value))
    (filterFn : Option (String → Value → Bool))
    (traitsLookup : Option (List (String × Value)))
    (civicsFiles : List (List (String × Value))) : List (String × ODef) :=
  originsMakeBidirectional (originsFirstPass originsFile filterFn traitsLookup)
    civicsFiles

/-! ## TraitsBuilder -/

/-- A JS number as produced by `parseInt`/numeric cost fields: an integer (or
numeric literal) carried as text, or `NaN`. -/
inductive JNum where
  | num (lit : String) : JNum
  | nan : JNum
deriving Repr, DecidableEq, Inhabited

mutual

/-- JS `String(x)` coercion (for `parseInt` arguments and property keys). -/
def jsToString : Value → String
  | .vNull => "null"
  | .vBool b => if b then "true" else "false"
  | .vNum lit => lit
  | .vStr s => s
  | .vList xs => jsToStringList xs
  | .vObj _ => "[object Object]"

/-- `Array.prototype.toString` = `join(',')`; `null` elements render empty. -/
def jsToStringList : List Value → String
  | [] => ""
  | [v] => (match v with | .vNull => "" | _ => jsToString v)
  | v :: vs =>
    (match v with | .vNull => "" | _ => jsToString v) ++ "," ++ jsToStringList vs
end

/-- JS `parseInt` on a string: skip whitespace, optional sign, leading
decimal digits; no digits means `NaN`. -/
def parseIntStr (s : String) : JNum :=
  let cs := s.toList.dropWhile isWS
  let sc : String × List Char :=
    match cs with
    | '-' :: r => ("-", r)
    | '+' :: r => ("", r)
    | r => ("", r)
  let ds := sc.2.takeWhile Char.isDigit
  if ds.isEmpty then JNum.nan else JNum.num (sc.1 ++ String.mk ds)

/-- `parseInt` applied to an arbitrary JS value. -/
def parseIntV (v : Value) : JNum := parseIntStr (jsToString v)

/-- strict `cost === 0` on a sign+digits literal (`NaN === 0` is false). -/
def jnumEqZero : JNum → Bool
  | .num lit => !(lit.toList.any (fun c => c.isDigit && c ≠ '0'))
  | .nan => false

/-- `TraitsBuilder._extractModifiers`: each object block contributes an entry
keyed by the value of each `has_*` condition, set to `parseInt` of the block's
`add` (when present). -/
def extractModifiers (modifierData : Value) : List (String × JNum) :=
  let arr := match modifierData with | .vList xs => xs | m => [m]
  arr.foldl
    (fun mods m =>
      if isObjTypeof m then
        (jsEntries m).foldl
          (fun mods kv =>
            if kv.1.startsWith "has_" then
              match getProp m "add" with
              | some addV => setKeyA mods (jsToString kv.2) (parseIntV addV)
              | none => mods
            else mods)
          mods
      else mods)
    []

/-- `TraitsBuilder._extractCost`: a numeric cost is taken as is; an
object-typed cost (plain object or array) reads `base` and `modifier`, falling
back to `parseInt` of the whole value when still zero without a truthy
`base`; anything else goes through `parseInt`. -/
def extractCost (data : Value) : JNum × List (String × JNum) :=
  match getProp data "cost" with
  | none => (JNum.num "0", [])
  | some c =>
    match c with
    | .vNum lit => (JNum.num lit, [])
    | .vStr _ => (parseIntV c, [])
    | .vBool _ => (parseIntV c, [])
    | _ =>
      -- `typeof` is `'object'` here (plain object, array, or the dead
      -- `null` path)
      let base := getProp c "base"
      let cost0 :=
        match base with
        | some b => parseIntV b
        | none => JNum.num "0"
      let modifiers :=
        match getProp c "modifier" with
        | some m => if truthy m then extractModifiers m else []
        | none => []
      let cost1 :=
        if jnumEqZero cost0 && truthyO base = false then parseIntV c else cost0
      (cost1, modifiers)

/-- `TraitsBuilder._extractOpposites`: a truthy `opposites` that is a string
yields itself; an array spreads its elements; other shapes yield nothing. -/
def extractOpposites (data : Value) : List Value :=
  match getProp data "opposites" with
  | some opp =>
    if truthy opp then
      match opp with
      | .vStr s => [Value.vStr s]
      | .vList xs => xs
      | _ => []
    else []
  | none => []

/-- `TraitsBuilder._extractSpeciesClass` (same shape analysis). -/
def extractSpeciesClass (data : Value) : List Value :=
  match getProp data "species_class" with
  | some sc =>
    if truthy sc then
      match sc with
      | .vStr s => [Value.vStr s]
      | .vList xs => xs
      | _ => []
    else []
  | none => []

/-- A trait's emitted definition. -/
structure TraitDef where
  cost : JNum
  no : List Value
  species_class : Option (List Value)
  modifiers : Option (List (String × JNum))
deriving Repr

/-- First pass of `TraitsBuilder.build`: skip `initial = no` traits and
filtered traits, then record cost, opposites, optional species classes and
optional modifiers. -/
def traitsFirstPass (parsedData : List (String × Value))
    (filterFn : Option (String → Value → Bool)) : List (String × TraitDef) :=
  parsedData.foldl
    (fun result e =>
      if (match getProp e.2 "initial" with
          | some (.vBool false) => true
          | some (.vStr "no") => true
          | _ => false) then result
      else if filterSkip filterFn e then
        result
      else
        let cm := extractCost e.2
        let opposites := extractOpposites e.2
        let sc := extractSpeciesClass e.2
        setKeyA result e.1
          { cost := cm.1
            no := opposites
            species_class := if sc.length > 0 then some sc else none
            modifiers := if cm.2.length > 0 then some cm.2 else none })
    []

/-- `Array.prototype.includes(id)` on a trait's `no` list: strict equality
with a string only matches that string. -/
def jsIncludesStr (xs : List Value) (s : String) : Bool :=
  xs.any (fun v => match v with | .vStr t => t = s | _ => false)

/-- push `v` onto the `no` list of the entry with key `k` (in place). -/
def tPush : List (String × TraitDef) → String → Value → List (String × TraitDef)
  | [], _, _ => []
  | (k', d) :: rest, k, v =>
    if k' = k then (k', { d with no := d.no ++ [v] }) :: rest
    else (k', d) :: tPush rest k v

/-- One opposite of the trait `id` being processed
(`TraitsBuilder._makeBidirectional`, inner loop body): a string opposite that
exists as a key receives `id` in its `no` list unless already contained;
anything else is ignored. -/
def tOppStep (id : String) (cur : List (String × TraitDef)) (opp : Value) :
    List (String × TraitDef) :=
  match opp with
  | .vStr s =>
    (match lookupA cur s with
     | some od =>
       if jsIncludesStr od.no id then cur else tPush cur s (.vStr id)
     | none => cur)
  | _ => cur

/-- One entry of the second pass of `TraitsBuilder._makeBidirectional`:
process each opposite of `id` in turn. -/
def tStep (cur : List (String × TraitDef)) (id : String) :
    List (String × TraitDef) :=
  match lookupA cur id with
  | none => cur
  | some d => d.no.foldl (tOppStep id) cur

/-- `TraitsBuilder._makeBidirectional`: process each trait id in turn over the
mutable definitions. -/
def traitsMakeBidirectional (defs : List (String × TraitDef)) :
    List (String × TraitDef) :=
  (defs.map Prod.fst).foldl tStep defs

/-- `TraitsBuilder.build`. -/
def traitsBuild (parsedData : List (String × Value))
    (filterFn : Option (String → Value → Bool)) : List (String × TraitDef) :=
  traitsMakeBidirectional (traitsFirstPass parsedData filterFn)

/-! ## Association-list and `SMap` lemmas -/

theorem lookupA_map_keyfn {α β : Type} (es : List (String × α))
    (F : String → α → β) (a : String) :
    lookupA (es.map (fun e => (e.1, F e.1 e.2))) a = (lookupA es a).map (F a) := by
  induction es with
  | nil => rfl
  | cons e rest ih =>
    simp only [List.map_cons, lookupA]
    by_cases h : e.1 = a
    · subst h
      simp
    · simp [h, ih]

theorem lookupA_append {α : Type} (l1 l2 : List (String × α)) (k : String) :
    lookupA (l1 ++ l2) k =
      match lookupA l1 k with
      | some v => some v
      | none => lookupA l2 k := by
  induction l1 with
  | nil => simp [lookupA]
  | cons e rest ih =>
    simp only [List.cons_append, lookupA]
    by_cases h : e.1 = k
    · simp [h]
    · simp [h, ih]

theorem lookupA_some_mem_keys {α : Type} {es : List (String × α)} {k : String}
    {v : α} (h : lookupA es k = some v) : k ∈ es.map Prod.fst := by
  induction es with
  | nil => simp [lookupA] at h
  | cons e rest ih =>
    simp only [lookupA] at h
    by_cases he : e.1 = k
    · simp [he]
    · simp [he] at h
      simp [ih h]

theorem SMap.get_eq (m : SMap) (a : String) :
    m.get a = (lookupA m.entries a).getD [] := rfl

theorem SMap.has_ensure (m : SMap) (k a : String) :
    (m.ensure k).has a = (m.has a || a = k) := by
  unfold SMap.ensure
  by_cases h : m.has k
  · simp only [h, if_true]
    by_cases hak : a = k
    · subst hak
      simp [h]
    · simp [hak]
  · simp only [h]
    simp only [Bool.false_eq_true, if_false]
    unfold SMap.has
    rw [lookupA_append]
    cases hl : lookupA m.entries a with
    | some v => simp [SMap.has, hl]
    | none =>
      simp only [SMap.has, hl] at *
      by_cases hak : a = k
      · subst hak
        simp [lookupA]
      · simp [lookupA, hak, Ne.symm hak]

theorem SMap.get_ensure (m : SMap) (k a : String) :
    (m.ensure k).get a = m.get a := by
  unfold SMap.ensure
  by_cases h : m.has k
  · simp [h]
  · simp only [h, Bool.false_eq_true, if_false]
    rw [SMap.get_eq, SMap.get_eq]
    rw [lookupA_append]
    cases hl : lookupA m.entries a with
    | some v => simp
    | none =>
      by_cases hak : a = k
      · subst hak
        simp [lookupA]
      · simp [lookupA, hak, Ne.symm hak]

theorem SMap.add_entries (m : SMap) (k v : String) :
    (m.add k v).entries = m.entries.map (fun e =>
      (e.1, if e.1 = k then (if v ∈ e.2 then e.2 else e.2 ++ [v]) else e.2)) := rfl

theorem SMap.has_add (m : SMap) (k v a : String) :
    (m.add k v).has a = m.has a := by
  unfold SMap.has
  rw [SMap.add_entries,
    lookupA_map_keyfn m.entries
      (fun k' l => if k' = k then (if v ∈ l then l else l ++ [v]) else l) a]
  cases lookupA m.entries a <;> simp

/-- membership after `Set.add`: the old members plus the added pair when the
key is present. -/
theorem SMap.mem_get_add (m : SMap) (k v a b : String) :
    b ∈ (m.add k v).get a ↔
      b ∈ m.get a ∨ (a = k ∧ b = v ∧ m.has k = true) := by
  rw [SMap.get_eq, SMap.get_eq, SMap.add_entries,
    lookupA_map_keyfn m.entries
      (fun k' l => if k' = k then (if v ∈ l then l else l ++ [v]) else l) a]
  cases hl : lookupA m.entries a with
  | none =>
    constructor
    · intro h
      exact absurd h (List.not_mem_nil b)
    · rintro (h | ⟨hak, _, hhask⟩)
      · exact absurd h (List.not_mem_nil b)
      · subst hak
        simp [SMap.has, hl] at hhask
  | some l =>
    by_cases hak : a = k
    · subst hak
      have hhas : m.has a = true := by simp [SMap.has, hl]
      by_cases hv : v ∈ l
      · simp only [Option.map_some', Option.getD_some, if_pos rfl, if_pos hv,
          hhas, and_true, true_and]
        exact ⟨fun h => Or.inl h, fun h => h.elim id (fun hb => hb ▸ hv)⟩
      · simp [hhas, hv, List.mem_append]
    · simp [hak]

/-! ## Closure characterisation: CivicsBuilder -/

/-- membership after the inner loop of `cPass1` over one civic's forbidden
list: both directions of each pair are recorded. -/
theorem cPass1_inner_mem (fs : List String) :
    ∀ (m : SMap) (n : String), m.has n = true → ∀ a b,
      (b ∈ (fs.foldl (fun m f => ((m.add n f).ensure f).add f n) m).get a ↔
        b ∈ m.get a ∨ (a = n ∧ b ∈ fs) ∨ (b = n ∧ a ∈ fs)) := by
  induction fs with
  | nil => intro m n _ a b; simp
  | cons f fs ih =>
    intro m n hn a b
    simp only [List.foldl_cons]
    have hhas1 : (((m.add n f).ensure f).add f n).has n = true := by
      simp [SMap.has_add, SMap.has_ensure, hn]
    rw [ih (((m.add n f).ensure f).add f n) n hhas1 a b]
    have hext : ∀ (x y : String),
        y ∈ (((m.add n f).ensure f).add f n).get x ↔
          y ∈ m.get x ∨ (x = n ∧ y = f) ∨ (x = f ∧ y = n) := by
      intro x y
      rw [SMap.mem_get_add, SMap.get_ensure, SMap.mem_get_add]
      have hf : ((m.add n f).ensure f).has f = true := by
        simp [SMap.has_ensure]
      rw [hf]
      have hn' : (m.add n f).has n = m.has n := SMap.has_add m n f n
      constructor
      · rintro ((h | ⟨h1, h2, _⟩) | ⟨h1, h2, _⟩)
        · exact Or.inl h
        · exact Or.inr (Or.inl ⟨h1, h2⟩)
        · exact Or.inr (Or.inr ⟨h1, h2⟩)
      · rintro (h | ⟨h1, h2⟩ | ⟨h1, h2⟩)
        · exact Or.inl (Or.inl h)
        · exact Or.inl (Or.inr ⟨h1, h2, hn⟩)
        · exact Or.inr ⟨h1, h2, rfl⟩
    rw [hext a b]
    simp only [List.mem_cons]
    tauto

/-- keys after the inner loop of `cPass1`. -/
theorem cPass1_inner_has (fs : List String) :
    ∀ (m : SMap) (n x : String),
      (fs.foldl (fun m f => ((m.add n f).ensure f).add f n) m).has x =
        (m.has x || fs.contains x) := by
  induction fs with
  | nil => intro m n x; simp
  | cons f fs ih =>
    intro m n x
    simp only [List.foldl_cons]
    rw [ih]
    simp only [SMap.has_add, SMap.has_ensure, List.contains_cons]
    by_cases hxf : x = f
    · subst hxf
      simp
    · have h1 : (x == f) = false := by simp [hxf]
      simp [hxf, h1, Bool.or_assoc]

/-- membership in the `cPass1` accumulator: some processed civic declared the
pair in one of the two directions. -/
theorem cPass1_mem (defs : List (String × CDef)) (a b : String) :
    b ∈ (cPass1 defs).get a ↔
      ∃ e ∈ defs, (a = e.1 ∧ b ∈ e.2.no.civics) ∨ (b = e.1 ∧ a ∈ e.2.no.civics) := by
  have main : ∀ (m : SMap),
      b ∈ (defs.foldl
        (fun m e => (e.2.no.civics).foldl
          (fun m f => ((m.add e.1 f).ensure f).add f e.1) (m.ensure e.1)) m).get a ↔
        b ∈ m.get a ∨
          ∃ e ∈ defs, (a = e.1 ∧ b ∈ e.2.no.civics) ∨ (b = e.1 ∧ a ∈ e.2.no.civics) := by
    induction defs with
    | nil => intro m; simp
    | cons e ds ih =>
      intro m
      simp only [List.foldl_cons]
      rw [ih]
      have hn : (m.ensure e.1).has e.1 = true := by simp [SMap.has_ensure]
      rw [cPass1_inner_mem e.2.no.civics (m.ensure e.1) e.1 hn a b]
      rw [SMap.get_ensure]
      simp only [List.mem_cons]
      constructor
      · rintro ((h | h | h) | ⟨e', he', hcase⟩)
        · exact Or.inl h
        · exact Or.inr ⟨e, Or.inl rfl, Or.inl h⟩
        · exact Or.inr ⟨e, Or.inl rfl, Or.inr h⟩
        · exact Or.inr ⟨e', Or.inr he', hcase⟩
      · rintro (h | ⟨e', he' | he', hcase⟩)
        · exact Or.inl (Or.inl h)
        · subst he'
          rcases hcase with h | h
          · exact Or.inl (Or.inr (Or.inl h))
          · exact Or.inl (Or.inr (Or.inr h))
        · exact Or.inr ⟨e', he', hcase⟩
  rw [cPass1]
  rw [main ⟨[]⟩]
  simp [SMap.get_eq, lookupA]

/-- every key of the input has an entry in the `cPass1` accumulator. -/
theorem cPass1_has_of_key (defs : List (String × CDef)) :
    ∀ (m : SMap) (x : String),
      (m.has x = true ∨ x ∈ defs.map Prod.fst) →
      (defs.foldl
        (fun m e => (e.2.no.civics).foldl
          (fun m f => ((m.add e.1 f).ensure f).add f e.1) (m.ensure e.1)) m).has x
        = true := by
  induction defs with
  | nil =>
    intro m x h
    rcases h with h | h
    · simpa using h
    · simp at h
  | cons e ds ih =>
    intro m x h
    simp only [List.foldl_cons]
    apply ih
    rcases h with h | h
    · left
      rw [cPass1_inner_has]
      simp [SMap.has_ensure, h]
    · simp only [List.map_cons, List.mem_cons] at h
      rcases h with h | h
      · left
        rw [cPass1_inner_has]
        simp [SMap.has_ensure, h]
      · right
        exact h

theorem mem_sortInsert (x y : String) (l : List String) :
    x ∈ sortInsert y l ↔ x = y ∨ x ∈ l := by
  induction l with
  | nil => simp [sortInsert]
  | cons z zs ih =>
    simp only [sortInsert]
    split
    · simp
    · simp only [List.mem_cons, ih]
      tauto

/-- `x ∈ sortStrings l` is membership in `l`. -/
theorem mem_sortStrings (l : List String) (x : String) :
    x ∈ sortStrings l ↔ x ∈ l := by
  induction l with
  | nil => simp [sortStrings]
  | cons y ys ih =>
    simp only [sortStrings, mem_sortInsert, List.mem_cons, ih]

/-- the rewrite pass keeps keys and replaces the forbidden-civics list of
every entry whose name has an accumulator entry. -/
theorem civicsMakeBidirectional_lookup (defs : List (String × CDef)) (a : String) :
    lookupA (civicsMakeBidirectional defs) a =
      (lookupA defs a).map (fun d =>
        if (cPass1 defs).has a then
          { d with no := { d.no with civics := sortStrings ((cPass1 defs).get a) } }
        else d) := by
  unfold civicsMakeBidirectional
  exact lookupA_map_keyfn defs
    (fun k d =>
      if (cPass1 defs).has k then
        { d with no := { d.no with civics := sortStrings ((cPass1 defs).get k) } }
      else d) a

/-- **C1.**  For every civics collection passed to `CivicsBuilder.build`
(with any filter), and any two civic names `A`, `B` bound in the returned
definitions: if `B` is in `A`'s civics-facet forbidden list, then `A` is in
`B`'s civics-facet forbidden list — even when the incompatibility was
declared only on one side. -/
theorem civicsBuild_forbidden_symmetric (file : List (String × Value))
    (fn : Option (String → Value → Bool)) (A B : String) (dA dB : CDef)
    (hA : lookupA (civicsBuild file fn) A = some dA)
    (hB : lookupA (civicsBuild file fn) B = some dB)
    (hmem : B ∈ dA.no.civics) : A ∈ dB.no.civics := by
  unfold civicsBuild at hA hB
  rw [civicsMakeBidirectional_lookup] at hA hB
  set defs := civicsFirstPass file fn with hdefs
  cases hlA : lookupA defs A with
  | none => rw [hlA] at hA; cases hA
  | some d0A =>
    cases hlB : lookupA defs B with
    | none => rw [hlB] at hB; cases hB
    | some d0B =>
      rw [hlA, Option.map_some'] at hA
      rw [hlB, Option.map_some'] at hB
      have hhasA : (cPass1 defs).has A = true := by
        rw [cPass1]
        exact cPass1_has_of_key defs ⟨[]⟩ A (Or.inr (lookupA_some_mem_keys hlA))
      have hhasB : (cPass1 defs).has B = true := by
        rw [cPass1]
        exact cPass1_has_of_key defs ⟨[]⟩ B (Or.inr (lookupA_some_mem_keys hlB))
      rw [if_pos hhasA] at hA
      rw [if_pos hhasB] at hB
      injection hA with hA'
      injection hB with hB'
      subst hA'
      subst hB'
      have hmem' : B ∈ sortStrings ((cPass1 defs).get A) := hmem
      rw [mem_sortStrings, cPass1_mem] at hmem'
      obtain ⟨e, he, hcase⟩ := hmem'
      have hgoal : A ∈ sortStrings ((cPass1 defs).get B) := by
        rw [mem_sortStrings, cPass1_mem]
        exact ⟨e, he, hcase.symm⟩
      exact hgoal

/-! ## Closure characterisation: OriginsBuilder -/

/-- the seeding loop of `oPass1` never creates or removes keys. -/
theorem oPass1_inner_has (fs : List String) :
    ∀ (m : SMap) (n x : String),
      (fs.foldl (fun m f => m.add n f) m).has x = m.has x := by
  induction fs with
  | nil => intro m n x; rfl
  | cons f fs ih =>
    intro m n x
    simp only [List.foldl_cons]
    rw [ih, SMap.has_add]

/-- every key of the input has an entry after `oPass1`. -/
theorem oPass1_has_of_key (defs : List (String × ODef)) :
    ∀ (m : SMap) (x : String),
      (m.has x = true ∨ x ∈ defs.map Prod.fst) →
      (defs.foldl
        (fun m e => (e.2.no.civics).foldl (fun m f => m.add e.1 f) (m.ensure e.1))
        m).has x = true := by
  induction defs with
  | nil =>
    intro m x h
    rcases h with h | h
    · simpa using h
    · simp at h
  | cons e ds ih =>
    intro m x h
    simp only [List.foldl_cons]
    apply ih
    rcases h with h | h
    · left
      rw [oPass1_inner_has]
      simp [SMap.has_ensure, h]
    · simp only [List.map_cons, List.mem_cons] at h
      rcases h with h | h
      · left
        rw [oPass1_inner_has]
        simp [SMap.has_ensure, h]
      · right
        exact h

/-- the restriction loop of `oPass2` never creates or removes keys. -/
theorem oPass2_rest_has (rs : List String) (c : String) :
    ∀ (m : SMap) (x : String),
      (rs.foldl (fun m o => if m.has o then m.add o c else m) m).has x = m.has x := by
  induction rs with
  | nil => intro m x; rfl
  | cons o os ih =>
    intro m x
    simp only [List.foldl_cons]
    rw [ih]
    by_cases ho : m.has o
    · simp [ho, SMap.has_add]
    · simp [ho]

/-- one file's scan in `oPass2` never creates or removes keys. -/
theorem oPass2_file_has (file : List (String × Value)) :
    ∀ (m : SMap) (x : String),
      (file.foldl (fun m e => (extractOriginRestrictions e.2).foldl
        (fun m originName => if m.has originName then m.add originName e.1 else m) m)
        m).has x = m.has x := by
  induction file with
  | nil => intro m x; rfl
  | cons e es ih =>
    intro m x
    simp only [List.foldl_cons]
    rw [ih, oPass2_rest_has]

/-- `oPass2` never creates or removes keys. -/
theorem oPass2_has (files : List (List (String × Value))) :
    ∀ (m : SMap) (x : String), (oPass2 m files).has x = m.has x := by
  induction files with
  | nil => intro m x; rfl
  | cons file fs ihf =>
    intro m x
    have hstep : oPass2 m (file :: fs) = oPass2 (file.foldl
        (fun m e => (extractOriginRestrictions e.2).foldl
          (fun m originName => if m.has originName then m.add originName e.1 else m) m)
        m) fs := rfl
    rw [hstep, ihf, oPass2_file_has]

/-- membership is monotone along the restriction loop of `oPass2`. -/
theorem oPass2_rest_mono (rs : List String) (c : String) :
    ∀ (m : SMap) (a b : String), b ∈ m.get a →
      b ∈ (rs.foldl (fun m o => if m.has o then m.add o c else m) m).get a := by
  induction rs with
  | nil => intro m a b h; exact h
  | cons o os ih =>
    intro m a b h
    simp only [List.foldl_cons]
    apply ih
    by_cases ho : m.has o
    · simp only [ho, if_true]
      rw [SMap.mem_get_add]
      exact Or.inl h
    · simpa [ho] using h

/-- the restriction loop of `oPass2` records the scanning civic on every
present origin it forbids. -/
theorem oPass2_rest_adds (rs : List String) (c : String) :
    ∀ (m : SMap) (o : String), o ∈ rs → m.has o = true →
      c ∈ (rs.foldl (fun m o => if m.has o then m.add o c else m) m).get o := by
  induction rs with
  | nil => intro m o h; simp at h
  | cons r rest ih =>
    intro m o hmem hhas
    simp only [List.foldl_cons]
    rcases List.mem_cons.mp hmem with h | h
    · subst h
      apply oPass2_rest_mono
      simp only [hhas, if_true]
      rw [SMap.mem_get_add]
      exact Or.inr ⟨rfl, rfl, hhas⟩
    · apply ih _ o h
      by_cases hr : m.has r
      · simp [hr, SMap.has_add, hhas]
      · simp [hr, hhas]

/-- membership is monotone along one file's scan in `oPass2`. -/
theorem oPass2_file_mono (file : List (String × Value)) :
    ∀ (m : SMap) (a b : String), b ∈ m.get a →
      b ∈ (file.foldl (fun m e => (extractOriginRestrictions e.2).foldl
        (fun m originName => if m.has originName then m.add originName e.1 else m) m)
        m).get a := by
  induction file with
  | nil => intro m a b h; exact h
  | cons e es ih =>
    intro m a b h
    simp only [List.foldl_cons]
    exact ih _ a b (oPass2_rest_mono _ _ _ a b h)

/-- membership is monotone along `oPass2`. -/
theorem oPass2_mono (files : List (List (String × Value))) :
    ∀ (m : SMap) (a b : String), b ∈ m.get a → b ∈ (oPass2 m files).get a := by
  induction files with
  | nil => intro m a b h; exact h
  | cons file fs ih =>
    intro m a b h
    have hstep : oPass2 m (file :: fs) = oPass2 (file.foldl
        (fun m e => (extractOriginRestrictions e.2).foldl
          (fun m originName => if m.has originName then m.add originName e.1 else m) m)
        m) fs := rfl
    rw [hstep]
    exact ih _ a b (oPass2_file_mono _ _ a b h)

/-- one file's scan records each scanned civic on every present origin it
forbids. -/
theorem oPass2_file_adds (file : List (String × Value)) :
    ∀ (m : SMap) (C O : String) (data : Value), (C, data) ∈ file →
      O ∈ extractOriginRestrictions data → m.has O = true →
      C ∈ (file.foldl (fun m e => (extractOriginRestrictions e.2).foldl
        (fun m originName => if m.has originName then m.add originName e.1 else m) m)
        m).get O := by
  induction file with
  | nil => intro m C O data h; simp at h
  | cons e es ih =>
    intro m C O data hmem hres hhas
    simp only [List.foldl_cons]
    rcases List.mem_cons.mp hmem with h | h
    · subst h
      exact oPass2_file_mono es _ O C (oPass2_rest_adds _ C m O hres hhas)
    · apply ih _ C O data h hres
      rw [oPass2_rest_has]
      exact hhas

/-- `oPass2` records each civic of each supplied file on every present origin
it forbids. -/
theorem oPass2_adds (files : List (List (String × Value))) :
    ∀ (m : SMap) (file : List (String × Value)) (C O : String) (data : Value),
      file ∈ files → (C, data) ∈ file → O ∈ extractOriginRestrictions data →
      m.has O = true → C ∈ (oPass2 m files).get O := by
  induction files with
  | nil => intro m file C O data h; simp at h
  | cons f fs ih =>
    intro m file C O data hfile hmem hres hhas
    have hstep : oPass2 m (f :: fs) = oPass2 (f.foldl
        (fun m e => (extractOriginRestrictions e.2).foldl
          (fun m originName => if m.has originName then m.add originName e.1 else m) m)
        m) fs := rfl
    rw [hstep]
    rcases List.mem_cons.mp hfile with h | h
    · subst h
      exact oPass2_mono fs _ O C (oPass2_file_adds file m C O data hmem hres hhas)
    · apply ih _ file C O data h hmem hres
      rw [oPass2_file_has]
      exact hhas

/-- the origins rewrite pass keeps keys and replaces the forbidden-civics
list of every entry whose name has an accumulator entry. -/
theorem originsMakeBidirectional_lookup (defs : List (String × ODef))
    (civicsFiles : List (List (String × Value))) (a : String) :
    lookupA (originsMakeBidirectional defs civicsFiles) a =
      (lookupA defs a).map (fun d =>
        if (oPass2 (oPass1 defs) civicsFiles).has a then
          { d with no := { d.no with
              civics := sortStrings ((oPass2 (oPass1 defs) civicsFiles).get a) } }
        else d) := by
  unfold originsMakeBidirectional
  exact lookupA_map_keyfn defs
    (fun k d =>
      if (oPass2 (oPass1 defs) civicsFiles).has k then
        { d with no := { d.no with
            civics := sortStrings ((oPass2 (oPass1 defs) civicsFiles).get k) } }
      else d) a

/-- **C2.**  For every origins file and civics files passed to
`OriginsBuilder.build`, and every origin `O` present in the output: if a civic
`C` in one of the supplied civics files forbids `O` in the `origin` node of
its `potential` or `possible` block (via `NOT`/`NOR`), then `C` appears in
`O`'s civics-facet forbidden list — even though `O` declared nothing and `C`
lives in a different collection. -/
theorem originsBuild_cross_collection (originsFile : List (String × Value))
    (fn : Option (String → Value → Bool))
    (tl : Option (List (String × Value)))
    (civicsFiles : List (List (String × Value)))
    (O C : String) (data : Value) (dO : ODef) (file : List (String × Value))
    (hO : lookupA (originsBuild originsFile fn tl civicsFiles) O = some dO)
    (hfile : file ∈ civicsFiles) (hC : (C, data) ∈ file)
    (hres : O ∈ extractOriginRestrictions data) : C ∈ dO.no.civics := by
  unfold originsBuild at hO
  rw [originsMakeBidirectional_lookup] at hO
  set defs := originsFirstPass originsFile fn tl with hdefs
  cases hlO : lookupA defs O with
  | none => rw [hlO] at hO; cases hO
  | some d0 =>
    rw [hlO, Option.map_some'] at hO
    have hhas1 : (oPass1 defs).has O = true := by
      rw [oPass1]
      exact oPass1_has_of_key defs ⟨[]⟩ O (Or.inr (lookupA_some_mem_keys hlO))
    have hhasO : (oPass2 (oPass1 defs) civicsFiles).has O = true := by
      rw [oPass2_has]
      exact hhas1
    rw [if_pos hhasO] at hO
    injection hO with hO'
    subst hO'
    have hmem : C ∈ sortStrings ((oPass2 (oPass1 defs) civicsFiles).get O) := by
      rw [mem_sortStrings]
      exact oPass2_adds civicsFiles (oPass1 defs) file C O data hfile hC hres hhas1
    exact hmem

/-- Witness for C2: origin `o` declares nothing; civic `c` in a separate
collection forbids it; the built origin forbids `c`. -/
theorem originsBuild_cross_collection_witness :
    "c" ∈ (ODef.mk ⟨[], [], [], [], [], []⟩ ⟨[], ["c"], [], [], [], []⟩).no.civics := by
  have h := originsBuild_cross_collection
    [("o", Value.vObj [])] none none
    [[("c", Value.vObj [("potential", Value.vObj [("origin",
        Value.vObj [("NOT", Value.vObj [("value", Value.vStr "o")])])])])]]
    "o" "c"
    (Value.vObj [("potential", Value.vObj [("origin",
        Value.vObj [("NOT", Value.vObj [("value", Value.vStr "o")])])])])
    (ODef.mk ⟨[], [], [], [], [], []⟩ ⟨[], ["c"], [], [], [], []⟩)
    [("c", Value.vObj [("potential", Value.vObj [("origin",
        Value.vObj [("NOT", Value.vObj [("value", Value.vStr "o")])])])])]
    (by rfl) (by simp) (by simp) (by decide)
  exact h

/-! ## DLC pre-filter (CivicsBuilder) -/

theorem setKeyA_lookup {α : Type} (l : List (String × α)) (k a : String) (v : α) :
    lookupA (setKeyA l k v) a = if k = a then some v else lookupA l a := by
  induction l with
  | nil =>
    by_cases h : k = a <;> simp [setKeyA, lookupA, h]
  | cons e rest ih =>
    simp only [setKeyA]
    by_cases he : e.1 = k
    · simp only [he, if_true, lookupA]
      by_cases h : k = a <;> simp [h]
    · simp only [he, if_false, lookupA]
      by_cases h2 : e.1 = a
      · have : ¬ k = a := fun hk => he (hk ▸ h2)
        simp [h2, this]
      · simp [h2, ih]

/-- a key bound in the accumulator stays bound along the first pass. -/
theorem civicsFirstPass_fold_some (es : List (String × Value))
    (fn : Option (String → Value → Bool)) :
    ∀ (acc : List (String × CDef)) (name : String),
      (lookupA acc name).isSome = true →
      (lookupA (es.foldl
        (fun defs e =>
          if requiresNoDLC e.2 then defs
          else if filterSkip fn e then defs
          else setKeyA defs e.1 (civicsBuildEntry e.2)) acc) name).isSome = true := by
  induction es with
  | nil => intro acc name h; exact h
  | cons e es ih =>
    intro acc name h
    simp only [List.foldl_cons]
    apply ih
    by_cases h1 : requiresNoDLC e.2
    · simpa [h1] using h
    · by_cases h2 : filterSkip fn e = true
      · simp [h1, h2, h]
      · simp only [h1, Bool.false_eq_true, if_false, h2]
        rw [setKeyA_lookup]
        by_cases h3 : e.1 = name
        · simp [h3]
        · simp [h3, h]

/-- an entry whose every same-named occurrence requires a missing DLC never
enters the first pass. -/
theorem civicsFirstPass_lookup_none (file : List (String × Value))
    (fn : Option (String → Value → Bool)) (name : String)
    (hall : ∀ data', (name, data') ∈ file → requiresNoDLC data' = true) :
    lookupA (civicsFirstPass file fn) name = none := by
  unfold civicsFirstPass
  have main : ∀ (es : List (String × Value)) (acc : List (String × CDef)),
      (∀ data', (name, data') ∈ es → requiresNoDLC data' = true) →
      lookupA acc name = none →
      lookupA (es.foldl
        (fun defs e =>
          if requiresNoDLC e.2 then defs
          else if filterSkip fn e then defs
          else setKeyA defs e.1 (civicsBuildEntry e.2)) acc) name = none := by
    intro es
    induction es with
    | nil => intro acc _ hacc; exact hacc
    | cons e es ih =>
      intro acc hall' hacc
      simp only [List.foldl_cons]
      apply ih
      · intro data' hd
        exact hall' data' (List.mem_cons_of_mem e hd)
      · by_cases h1 : requiresNoDLC e.2
        · simpa [h1] using hacc
        · by_cases hkey : e.1 = name
          · exact (h1 (hall' e.2
              (by rw [← hkey]; exact List.mem_cons_self e es))).elim
          · by_cases h2 : filterSkip fn e = true
            · simp [h1, h2, hacc]
            · simp only [h1, Bool.false_eq_true, if_false, h2]
              rw [setKeyA_lookup]
              simp [hkey, hacc]
  exact main file [] hall rfl

/-- an entry's first-pass record survives to the end of the loop once
written, and a clean entry is written (no filter supplied). -/
theorem civicsFirstPass_retains (file : List (String × Value))
    (name : String) (data : Value)
    (hmem : (name, data) ∈ file) (hdlc : requiresNoDLC data = false) :
    (lookupA (civicsFirstPass file none) name).isSome = true := by
  unfold civicsFirstPass
  have main : ∀ (es : List (String × Value)) (acc : List (String × CDef)),
      (name, data) ∈ es →
      (lookupA (es.foldl
        (fun defs e =>
          if requiresNoDLC e.2 then defs
          else if filterSkip none e then defs
          else setKeyA defs e.1 (civicsBuildEntry e.2)) acc) name).isSome = true := by
    intro es
    induction es with
    | nil => intro acc h; simp at h
    | cons e es ih =>
      intro acc hmem'
      simp only [List.foldl_cons]
      rcases List.mem_cons.mp hmem' with h | h
      · obtain ⟨en, ed⟩ := e
        injection h with h1 h2
        subst h1
        subst h2
        apply civicsFirstPass_fold_some es none
        simp [hdlc, filterSkip, setKeyA_lookup]
      · exact ih _ h
  exact main file [] hmem

/-- keys uniquely determine values in a Nodup-keyed association list. -/
theorem nodup_keys_unique {α : Type} {l : List (String × α)}
    (h : (l.map Prod.fst).Nodup) {k : String} {a b : α}
    (ha : (k, a) ∈ l) (hb : (k, b) ∈ l) : a = b := by
  induction l with
  | nil => simp at ha
  | cons e rest ih =>
    simp only [List.map_cons, List.nodup_cons] at h
    rcases List.mem_cons.mp ha with h1 | h1 <;> rcases List.mem_cons.mp hb with h2 | h2
    · have heq : (k, a) = (k, b) := h1.trans h2.symm
      injection heq with _ hab
    · exfalso
      apply h.1
      rw [← h1]
      exact List.mem_map.mpr ⟨_, h2, rfl⟩
    · exfalso
      apply h.1
      rw [← h2]
      exact List.mem_map.mpr ⟨_, h1, rfl⟩
    · exact ih h.2 h1 h2

/-- **C9.**  An entity whose `playable` block contains a `NOT` wrapping a
truthy `host_has_dlc` predicate is excluded from `CivicsBuilder.build`'s
output entirely (under any filter); an entity without the pattern is retained
(when no extra filter is supplied). -/
theorem civicsBuild_dlc_prefilter (file : List (String × Value))
    (fn : Option (String → Value → Bool)) (name : String) (data : Value)
    (hnodup : (file.map Prod.fst).Nodup) (hmem : (name, data) ∈ file) :
    (∀ p nb b d, getProp data "playable" = some p → truthy p = true →
        getProp p "NOT" = some nb → truthy nb = true →
        b ∈ jsNotBlocks nb → getProp b "host_has_dlc" = some d →
        truthy d = true →
        lookupA (civicsBuild file fn) name = none) ∧
    (requiresNoDLC data = false →
        (lookupA (civicsBuild file none) name).isSome = true) := by
  constructor
  · intro p nb b d hp htp hnb htnb hb hd htd
    have hdlc : requiresNoDLC data = true := by
      have hobj : isObjTypeof b = true := by
        cases b <;> (try rfl) <;> simp [getProp] at hd
      have hanyb : (jsNotBlocks nb).any
          (fun b => isObjTypeof b && truthyO (getProp b "host_has_dlc")) = true := by
        rw [List.any_eq_true]
        exact ⟨b, hb, by rw [hobj, hd]; simp [truthyO, htd]⟩
      simp [requiresNoDLC, hp, hnb, htp, htnb, hanyb]
    unfold civicsBuild
    rw [civicsMakeBidirectional_lookup]
    rw [civicsFirstPass_lookup_none file fn name ?hall]
    · rfl
    case hall =>
      intro data' hd'
      have : data' = data := nodup_keys_unique hnodup hd' hmem
      rw [this]
      exact hdlc
  · intro hdlc
    unfold civicsBuild
    rw [civicsMakeBidirectional_lookup]
    have := civicsFirstPass_retains file name data hmem hdlc
    cases hl : lookupA (civicsFirstPass file none) name with
    | none => rw [hl] at this; simp at this
    | some d => simp

/-- Witness for C9: a civic playable only without a DLC is dropped; a plain
civic is kept. -/
theorem civicsBuild_dlc_prefilter_witness :
    lookupA (civicsBuild
      [("c", Value.vObj [("playable", Value.vObj [("NOT",
          Value.vObj [("host_has_dlc", Value.vStr "Apocalypse")])])]),
       ("d", Value.vObj [])] none) "c" = none ∧
    (lookupA (civicsBuild
      [("c", Value.vObj [("playable", Value.vObj [("NOT",
          Value.vObj [("host_has_dlc", Value.vStr "Apocalypse")])])]),
       ("d", Value.vObj [])] none) "d").isSome = true := by
  constructor
  · exact (civicsBuild_dlc_prefilter
      [("c", Value.vObj [("playable", Value.vObj [("NOT",
          Value.vObj [("host_has_dlc", Value.vStr "Apocalypse")])])]),
       ("d", Value.vObj [])] none "c"
      (Value.vObj [("playable", Value.vObj [("NOT",
          Value.vObj [("host_has_dlc", Value.vStr "Apocalypse")])])])
      (by decide) (List.mem_cons_self _ _)).1
      (Value.vObj [("NOT", Value.vObj [("host_has_dlc", Value.vStr "Apocalypse")])])
      (Value.vObj [("host_has_dlc", Value.vStr "Apocalypse")])
      (Value.vObj [("host_has_dlc", Value.vStr "Apocalypse")])
      (Value.vStr "Apocalypse")
      rfl rfl rfl rfl (by simp [jsNotBlocks]) rfl rfl
  · exact (civicsBuild_dlc_prefilter
      [("c", Value.vObj [("playable", Value.vObj [("NOT",
          Value.vObj [("host_has_dlc", Value.vStr "Apocalypse")])])]),
       ("d", Value.vObj [])] none "d" (Value.vObj [])
      (by decide) (List.mem_cons_of_mem _ (List.mem_cons_self _ _))).2 rfl

/-! ## TraitsBuilder bidirectional opposites -/

theorem lookupA_isSome_iff {α : Type} (l : List (String × α)) (k : String) :
    (lookupA l k).isSome = true ↔ k ∈ l.map Prod.fst := by
  induction l with
  | nil => simp [lookupA]
  | cons e rest ih =>
    simp only [lookupA, List.map_cons, List.mem_cons]
    by_cases h : e.1 = k
    · simp [h]
    · simp only [h, if_false, ih]
      constructor
      · exact fun hm => Or.inr hm
      · rintro (hm | hm)
        · exact absurd hm.symm h
        · exact hm

theorem jsIncludesStr_iff (xs : List Value) (s : String) :
    jsIncludesStr xs s = true ↔ Value.vStr s ∈ xs := by
  unfold jsIncludesStr
  rw [List.any_eq_true]
  constructor
  · rintro ⟨v, hv, hp⟩
    cases v <;> simp at hp
    rename_i t
    subst hp
    exact hv
  · intro h
    exact ⟨Value.vStr s, h, by simp⟩

theorem tPush_keys (defs : List (String × TraitDef)) (k : String) (v : Value) :
    (tPush defs k v).map Prod.fst = defs.map Prod.fst := by
  induction defs with
  | nil => rfl
  | cons e rest ih =>
    obtain ⟨k', d⟩ := e
    simp only [tPush]
    by_cases h : k' = k
    · simp [h]
    · simp [h, ih]

theorem tPush_lookup (defs : List (String × TraitDef)) (k a : String) (v : Value) :
    lookupA (tPush defs k v) a =
      (lookupA defs a).map
        (fun d => if a = k then { d with no := d.no ++ [v] } else d) := by
  induction defs with
  | nil => rfl
  | cons e rest ih =>
    obtain ⟨k', d⟩ := e
    simp only [tPush]
    by_cases hk : k' = k
    · subst hk
      simp only [if_pos rfl, lookupA]
      by_cases ha : k' = a
      · subst ha
        simp
      · simp only [ha, if_false]
        have hne : ¬ a = k' := fun h => ha h.symm
        cases lookupA rest a with
        | none => simp
        | some d2 => simp [hne]
    · simp only [hk, if_false, lookupA]
      by_cases ha : k' = a
      · subst ha
        have hne : ¬ k' = k := hk
        simp [hne]
      · simp [ha, ih]

theorem tOppStep_keys (id : String) (cur : List (String × TraitDef)) (opp : Value) :
    (tOppStep id cur opp).map Prod.fst = cur.map Prod.fst := by
  cases opp <;> try rfl
  rename_i s
  show ((match lookupA cur s with
         | some od =>
           if jsIncludesStr od.no id then cur else tPush cur s (.vStr id)
         | none => cur) : List (String × TraitDef)).map Prod.fst = cur.map Prod.fst
  cases lookupA cur s with
  | none => rfl
  | some od =>
    by_cases h : jsIncludesStr od.no id
    · simp [h]
    · simp [h, tPush_keys]

theorem tOppStep_lookup (id : String) (cur : List (String × TraitDef)) (opp : Value)
    (X : String) (dX : TraitDef) (hX : lookupA cur X = some dX) :
    ∃ dX', lookupA (tOppStep id cur opp) X = some dX' ∧
      (dX' = dX ∨ (dX'.no = dX.no ++ [Value.vStr id] ∧ opp = Value.vStr X ∧
        Value.vStr id ∉ dX.no)) := by
  cases opp <;> try exact ⟨dX, hX, Or.inl rfl⟩
  rename_i s
  have hred : tOppStep id cur (.vStr s) =
      (match lookupA cur s with
       | some od =>
         if jsIncludesStr od.no id then cur else tPush cur s (.vStr id)
       | none => cur) := rfl
  cases hl : lookupA cur s with
  | none =>
    rw [hred, hl]
    exact ⟨dX, hX, Or.inl rfl⟩
  | some od =>
    rw [hred, hl]
    by_cases hin : jsIncludesStr od.no id
    · simp only [hin, if_true]
      exact ⟨dX, hX, Or.inl rfl⟩
    · simp only [hin, Bool.false_eq_true, if_false]
      rw [tPush_lookup, hX]
      by_cases hXs : X = s
      · subst hXs
        refine ⟨{ dX with no := dX.no ++ [Value.vStr id] }, by simp, Or.inr ⟨rfl, rfl, ?_⟩⟩
        have hod : od = dX := Option.some.inj (hl.symm.trans hX)
        subst hod
        intro hmem
        exact hin ((jsIncludesStr_iff od.no id).mpr hmem)
      · exact ⟨dX, by simp [hXs], Or.inl rfl⟩

theorem tOppStep_self (id s : String) (cur : List (String × TraitDef))
    (od : TraitDef) (hl : lookupA cur s = some od) :
    ∃ od1, lookupA (tOppStep id cur (.vStr s)) s = some od1 ∧
      Value.vStr id ∈ od1.no := by
  have hred : tOppStep id cur (.vStr s) =
      (match lookupA cur s with
       | some od =>
         if jsIncludesStr od.no id then cur else tPush cur s (.vStr id)
       | none => cur) := rfl
  rw [hred, hl]
  by_cases hin : jsIncludesStr od.no id
  · simp only [hin, if_true]
    exact ⟨od, hl, (jsIncludesStr_iff od.no id).mp hin⟩
  · simp only [hin, Bool.false_eq_true, if_false]
    rw [tPush_lookup, hl]
    exact ⟨{ od with no := od.no ++ [Value.vStr id] }, by simp, by simp⟩

/-- effect of the whole inner loop of `_makeBidirectional` for one trait
`id`: keys are unchanged, every `no` list grows by at most one copy of `id`
(and only for traits named among the opposites), and every string opposite
that exists as a key ends up containing `id`. -/
theorem tInner_spec (id : String) (opps : List Value) :
    ∀ (cur : List (String × TraitDef)),
      ((opps.foldl (tOppStep id) cur).map Prod.fst = cur.map Prod.fst) ∧
      (∀ X dX, lookupA cur X = some dX →
        ∃ dX', lookupA (opps.foldl (tOppStep id) cur) X = some dX' ∧
          (dX' = dX ∨ (dX'.no = dX.no ++ [Value.vStr id] ∧ Value.vStr X ∈ opps ∧
            Value.vStr id ∉ dX.no))) ∧
      (∀ s od, Value.vStr s ∈ opps → lookupA cur s = some od →
        ∃ od', lookupA (opps.foldl (tOppStep id) cur) s = some od' ∧
          Value.vStr id ∈ od'.no) := by
  induction opps with
  | nil =>
    intro cur
    refine ⟨rfl, fun X dX hX => ⟨dX, hX, Or.inl rfl⟩, fun s od h => by simp at h⟩
  | cons opp rest ih =>
    intro cur
    simp only [List.foldl_cons]
    obtain ⟨ihk, ihb, ihc⟩ := ih (tOppStep id cur opp)
    refine ⟨ihk.trans (tOppStep_keys id cur opp), ?_, ?_⟩
    · intro X dX hX
      obtain ⟨dX1, hX1, rel1⟩ := tOppStep_lookup id cur opp X dX hX
      obtain ⟨dX', hX', rel2⟩ := ihb X dX1 hX1
      refine ⟨dX', hX', ?_⟩
      rcases rel1 with rfl | ⟨hno1, hopp1, hg1⟩
      · rcases rel2 with rfl | ⟨hno2, hm2, hg2⟩
        · exact Or.inl rfl
        · exact Or.inr ⟨hno2, List.mem_cons_of_mem _ hm2, hg2⟩
      · rcases rel2 with rfl | ⟨hno2, hm2, hg2⟩
        · exact Or.inr ⟨hno1, hopp1 ▸ List.mem_cons_self _ _, hg1⟩
        · exfalso
          apply hg2
          rw [hno1]
          simp
    · intro s od hmem hs
      rcases List.mem_cons.mp hmem with h | h
      · subst h
        obtain ⟨od1, h1, hin1⟩ := tOppStep_self id s cur od hs
        obtain ⟨od', h', rel⟩ := ihb s od1 h1
        refine ⟨od', h', ?_⟩
        rcases rel with rfl | ⟨hno, _, _⟩
        · exact hin1
        · rw [hno]
          exact List.mem_append_left _ hin1
      · obtain ⟨od1, h1, _⟩ := tOppStep_lookup id cur opp s od hs
        exact ihc s od1 h h1

/-- effect of processing one trait id in `_makeBidirectional`. -/
theorem tStep_spec (cur : List (String × TraitDef)) (id : String) :
    ((tStep cur id).map Prod.fst = cur.map Prod.fst) ∧
    (∀ X dX, lookupA cur X = some dX →
      ∃ dX', lookupA (tStep cur id) X = some dX' ∧
        (dX' = dX ∨ (dX'.no = dX.no ++ [Value.vStr id] ∧
          (∃ d0, lookupA cur id = some d0 ∧ Value.vStr X ∈ d0.no) ∧
          Value.vStr id ∉ dX.no))) ∧
    (∀ d0, lookupA cur id = some d0 → ∀ s od, Value.vStr s ∈ d0.no →
      lookupA cur s = some od →
      ∃ od', lookupA (tStep cur id) s = some od' ∧ Value.vStr id ∈ od'.no) := by
  unfold tStep
  cases hl : lookupA cur id with
  | none =>
    exact ⟨rfl, fun X dX hX => ⟨dX, hX, Or.inl rfl⟩,
      fun d0 h0 => Option.noConfusion h0⟩
  | some d =>
    obtain ⟨hk, hb, hc⟩ := tInner_spec id d.no cur
    refine ⟨hk, ?_, ?_⟩
    · intro X dX hX
      obtain ⟨dX', h', rel⟩ := hb X dX hX
      refine ⟨dX', h', ?_⟩
      rcases rel with rfl | ⟨hno, hm, hg⟩
      · exact Or.inl rfl
      · exact Or.inr ⟨hno, ⟨d, rfl, hm⟩, hg⟩
    · intro d0 h0 s od hmem hs
      have hd : d0 = d := (Option.some.inj h0).symm
      subst hd
      exact hc s od hmem hs

/-- keys are unchanged by the whole second pass. -/
theorem tFold_keys (ids : List String) :
    ∀ (cur : List (String × TraitDef)),
      (ids.foldl tStep cur).map Prod.fst = cur.map Prod.fst := by
  induction ids with
  | nil => intro cur; rfl
  | cons id rest ih =>
    intro cur
    simp only [List.foldl_cons]
    exact (ih (tStep cur id)).trans (tStep_spec cur id).1

/-- the symmetry invariant of the second pass: after processing `ids` on top
of a state already symmetric for `P`, the state is symmetric for `P ++ ids`. -/
theorem tFold_symm (ids : List String) :
    ∀ (cur : List (String × TraitDef)) (P : List String),
      (∀ A, A ∈ P → ∀ dA, lookupA cur A = some dA →
        ∀ B dB, lookupA cur B = some dB →
        Value.vStr B ∈ dA.no → Value.vStr A ∈ dB.no) →
      (∀ A, A ∈ P ++ ids → ∀ dA, lookupA (ids.foldl tStep cur) A = some dA →
        ∀ B dB, lookupA (ids.foldl tStep cur) B = some dB →
        Value.vStr B ∈ dA.no → Value.vStr A ∈ dB.no) := by
  induction ids with
  | nil =>
    intro cur P h
    simpa using h
  | cons id rest ih =>
    intro cur P hInv
    obtain ⟨hkeys, hb, hc⟩ := tStep_spec cur id
    have hInv1 : ∀ A, A ∈ P ++ [id] → ∀ dA, lookupA (tStep cur id) A = some dA →
        ∀ B dB, lookupA (tStep cur id) B = some dB →
        Value.vStr B ∈ dA.no → Value.vStr A ∈ dB.no := by
      intro A hA dA hdA B dB hdB hBin
      have hsomeA : (lookupA cur A).isSome = true := by
        rw [lookupA_isSome_iff, ← hkeys, ← lookupA_isSome_iff, hdA]
        rfl
      have hsomeB : (lookupA cur B).isSome = true := by
        rw [lookupA_isSome_iff, ← hkeys, ← lookupA_isSome_iff, hdB]
        rfl
      obtain ⟨dA0, hdA0⟩ := Option.isSome_iff_exists.mp hsomeA
      obtain ⟨dB0, hdB0⟩ := Option.isSome_iff_exists.mp hsomeB
      obtain ⟨dA1, hdA1, relA⟩ := hb A dA0 hdA0
      have heA : dA = dA1 := Option.some.inj (hdA.symm.trans hdA1)
      rw [← heA] at relA
      obtain ⟨dB1, hdB1, relB⟩ := hb B dB0 hdB0
      have heB : dB = dB1 := Option.some.inj (hdB.symm.trans hdB1)
      rw [← heB] at relB
      rcases List.mem_append.mp hA with hAP | hAid
      · rcases relA with heqA | ⟨hnoA, ⟨d0, hd0, hAmem⟩, _⟩
        · rw [heqA] at hBin
          have hApre : Value.vStr A ∈ dB0.no := hInv A hAP dA0 hdA0 B dB0 hdB0 hBin
          rcases relB with heqB | ⟨hnoB, _, _⟩
          · rw [heqB]
            exact hApre
          · rw [hnoB]
            exact List.mem_append_left _ hApre
        · rcases List.mem_append.mp (hnoA ▸ hBin) with hB0 | hBid
          · have hApre : Value.vStr A ∈ dB0.no := hInv A hAP dA0 hdA0 B dB0 hdB0 hB0
            rcases relB with heqB | ⟨hnoB, _, _⟩
            · rw [heqB]
              exact hApre
            · rw [hnoB]
              exact List.mem_append_left _ hApre
          · have hBid' : B = id := by
              have := List.mem_singleton.mp hBid
              injection this
            subst hBid'
            have heq0 : dB0 = d0 := Option.some.inj (hdB0.symm.trans hd0)
            rw [← heq0] at hAmem
            rcases relB with heqB | ⟨hnoB, _, _⟩
            · rw [heqB]
              exact hAmem
            · rw [hnoB]
              exact List.mem_append_left _ hAmem
      · have hA' : A = id := List.mem_singleton.mp hAid
        subst hA'
        by_cases hBA : B = A
        · subst hBA
          have heq : dB = dA := Option.some.inj (hdB.symm.trans hdA)
          rw [heq]
          exact hBin
        · have hBd0 : Value.vStr B ∈ dA0.no := by
            rcases relA with heqA | ⟨hnoA, _, _⟩
            · rw [heqA] at hBin
              exact hBin
            · rcases List.mem_append.mp (hnoA ▸ hBin) with h | h
              · exact h
              · exfalso
                apply hBA
                have := List.mem_singleton.mp h
                injection this
          obtain ⟨od', hod', hidin⟩ := hc dA0 hdA0 B dB0 hBd0 hdB0
          have heq : od' = dB := Option.some.inj (hod'.symm.trans hdB)
          rw [← heq]
          exact hidin
    intro A hA
    simp only [List.foldl_cons]
    apply ih (tStep cur id) (P ++ [id]) hInv1
    rw [List.append_assoc]
    simpa using hA

/-- the second pass only ever adds string ids drawn from `S` (any superset of
the processed ids) to a `no` list. -/
theorem tFold_no_growth (ids : List String) :
    ∀ (cur : List (String × TraitDef)) (S : List String),
      (∀ i, i ∈ ids → i ∈ S) →
      ∀ A dA dA', lookupA cur A = some dA →
        lookupA (ids.foldl tStep cur) A = some dA' →
        ∀ v, v ∈ dA'.no → v ∈ dA.no ∨ ∃ C, v = Value.vStr C ∧ C ∈ S := by
  induction ids with
  | nil =>
    intro cur S _ A dA dA' h1 h2 v hv
    have : dA = dA' := Option.some.inj (h1.symm.trans h2)
    subst this
    exact Or.inl hv
  | cons id rest ih =>
    intro cur S hS A dA dA' h1 h2 v hv
    simp only [List.foldl_cons] at h2
    obtain ⟨dA1, hdA1, rel⟩ := (tStep_spec cur id).2.1 A dA h1
    have := ih (tStep cur id) S (fun i hi => hS i (List.mem_cons_of_mem _ hi))
      A dA1 dA' hdA1 h2 v hv
    rcases this with hmid | hS'
    · rcases rel with rfl | ⟨hno, _, _⟩
      · exact Or.inl hmid
      · rcases List.mem_append.mp (hno ▸ hmid) with h | h
        · exact Or.inl h
        · have : v = Value.vStr id := List.mem_singleton.mp h
          exact Or.inr ⟨id, this, hS id (List.mem_cons_self _ _)⟩
    · exact Or.inr hS'

/-- **C10.**  In every definitions object produced by `TraitsBuilder.build`:
(1) for any two trait ids `A`, `B` bound in the output, if `B` is in `A`'s
`no` (opposites) list then `A` is in `B`'s; (2) the bidirectional pass never
creates a new top-level entry; (3) every `no` entry is either original or the
string id of an existing key — an absent opposite never produces one. -/
theorem traitsBuild_bidirectional (parsedData : List (String × Value))
    (fn : Option (String → Value → Bool)) :
    (∀ A B dA dB, lookupA (traitsBuild parsedData fn) A = some dA →
        lookupA (traitsBuild parsedData fn) B = some dB →
        Value.vStr B ∈ dA.no → Value.vStr A ∈ dB.no) ∧
    ((traitsBuild parsedData fn).map Prod.fst =
      (traitsFirstPass parsedData fn).map Prod.fst) ∧
    (∀ A dA0 dA, lookupA (traitsFirstPass parsedData fn) A = some dA0 →
        lookupA (traitsBuild parsedData fn) A = some dA →
        ∀ v, v ∈ dA.no → v ∈ dA0.no ∨
          ∃ C, v = Value.vStr C ∧
            C ∈ (traitsFirstPass parsedData fn).map Prod.fst) := by
  have hbuild : traitsBuild parsedData fn =
      ((traitsFirstPass parsedData fn).map Prod.fst).foldl tStep
        (traitsFirstPass parsedData fn) := rfl
  refine ⟨?_, ?_, ?_⟩
  · intro A B dA dB hA hB hBin
    rw [hbuild] at hA hB
    have hAkeys : A ∈ (traitsFirstPass parsedData fn).map Prod.fst := by
      rw [← tFold_keys ((traitsFirstPass parsedData fn).map Prod.fst)
        (traitsFirstPass parsedData fn)]
      exact lookupA_some_mem_keys hA
    exact tFold_symm ((traitsFirstPass parsedData fn).map Prod.fst)
      (traitsFirstPass parsedData fn) [] (by intro A hA; cases hA)
      A (by simpa using hAkeys) dA hA B dB hB hBin
  · rw [hbuild]
    exact tFold_keys _ _
  · intro A dA0 dA h0 hA v hv
    rw [hbuild] at hA
    exact tFold_no_growth ((traitsFirstPass parsedData fn).map Prod.fst)
      (traitsFirstPass parsedData fn) ((traitsFirstPass parsedData fn).map Prod.fst)
      (fun i hi => hi) A dA0 dA h0 hA v hv

/-- Witness for C10: `ta` opposes `tb` (and a nonexistent `tz`); the build
makes the pair mutual and creates no entry for `tz`. -/
theorem traitsBuild_bidirectional_witness :
    Value.vStr "ta" ∈ (TraitDef.mk (JNum.num "0") [Value.vStr "ta"] none none).no ∧
    (traitsBuild [("ta", Value.vObj [("opposites",
        Value.vList [Value.vStr "tb", Value.vStr "tz"])]),
      ("tb", Value.vObj [])] none).map Prod.fst =
      (traitsFirstPass [("ta", Value.vObj [("opposites",
        Value.vList [Value.vStr "tb", Value.vStr "tz"])]),
      ("tb", Value.vObj [])] none).map Prod.fst := by
  constructor
  · exact (traitsBuild_bidirectional
      [("ta", Value.vObj [("opposites",
          Value.vList [Value.vStr "tb", Value.vStr "tz"])]),
       ("tb", Value.vObj [])] none).1 "ta" "tb"
      (TraitDef.mk (JNum.num "0") [Value.vStr "tb", Value.vStr "tz"] none none)
      (TraitDef.mk (JNum.num "0") [Value.vStr "ta"] none none)
      (by rfl) (by rfl) (List.mem_cons_self _ _)
  · exact (traitsBuild_bidirectional
      [("ta", Value.vObj [("opposites",
          Value.vList [Value.vStr "tb", Value.vStr "tz"])]),
       ("tb", Value.vObj [])] none).2.1

/-- Witness for C1 at a concrete collection: `a` forbids `b` one-sidedly and
the built definitions forbid in both directions. -/
theorem civicsBuild_forbidden_symmetric_witness :
    "a" ∈ (CDef.mk ⟨[], [], [], [], []⟩ ⟨[], ["a"], [], [], []⟩).no.civics := by
  have h := civicsBuild_forbidden_symmetric
    [("a", Value.vObj [("potential", Value.vObj [("civics",
        Value.vObj [("NOT", Value.vObj [("value", Value.vStr "b")])])])]),
     ("b", Value.vObj [])] none "a" "b"
    (CDef.mk ⟨[], [], [], [], []⟩ ⟨[], ["b"], [], [], []⟩)
    (CDef.mk ⟨[], [], [], [], []⟩ ⟨[], ["a"], [], [], []⟩)
    (by rfl) (by rfl) (by decide)
  exact h

/-! ## OR-group handling (`_handle` vs `_handleCulture`) -/

/-- the `OR` groups of a facet block, as iterated by `_handle` and
`_handleCulture`: each block of an `OR` array, or the single truthy `OR`AD
node. -/
def orGroupsOf (block : Value) : List (List String) :=
  match getProp block "OR" with
  | some (.vList orBlocks) => orBlocks.map gather
  | some orB => if truthy orB then [gather orB] else []
  | none => []

/-- the bare required atoms of a facet block's truthy `value` node. -/
def valueAtomsOf (block : Value) : List String :=
  match getProp block "value" with
  | some valB => if truthy valB then gather valB else []
  | none => []

/-- the forbidden identifiers of a facet block: truthy `NOR` then truthy
`NOT`, both gathered flat. -/
def norNotOf (block : Value) : List String :=
  (match getProp block "NOR" with
   | some norB => if truthy norB then gather norB else []
   | none => []) ++
  (match getProp block "NOT" with
   | some notB => if truthy notB then gather notB else []
   | none => [])

theorem handle_or_fold (bs : List Value) :
    ∀ (acc : List Value),
      bs.foldl (fun acc og =>
        let g := gather og
        if g.isEmpty then acc else acc ++ [Value.vList (g.map Value.vStr)]) acc =
      acc ++ ((bs.map gather).filter (fun g => !g.isEmpty)).map
        (fun g => Value.vList (g.map Value.vStr)) := by
  induction bs with
  | nil => intro acc; simp
  | cons b rest ih =>
    intro acc
    simp only [List.foldl_cons, List.map_cons, List.filter_cons]
    rw [ih]
    by_cases h : (gather b).isEmpty
    · simp [h]
    · simp [h, List.append_assoc]

theorem culture_or_fold (bs : List Value) :
    ∀ (acc : List Value),
      bs.foldl (fun acc og => acc ++ (gather og).map Value.vStr) acc =
      acc ++ ((bs.map gather).flatten).map Value.vStr := by
  induction bs with
  | nil => intro acc; simp
  | cons b rest ih =>
    intro acc
    simp only [List.foldl_cons, List.map_cons]
    rw [ih]
    simp [List.append_assoc]

theorem single_or_branch (orB : Value) (yesArr : List Value) :
    (if truthy orB then
      (let g := gather orB
       if g.isEmpty then yesArr else yesArr ++ [Value.vList (g.map Value.vStr)])
     else yesArr) =
    yesArr ++ (((if truthy orB then [gather orB] else []).filter
      (fun g => !g.isEmpty)).map (fun g => Value.vList (g.map Value.vStr))) := by
  by_cases ht : truthy orB
  · simp only [ht, if_true]
    by_cases h : (gather orB).isEmpty <;> simp [h, List.filter]
  · simp [ht]

theorem culture_single_or_branch (orB : Value) (yesArr : List Value) :
    (if truthy orB then yesArr ++ (gather orB).map Value.vStr else yesArr) =
    yesArr ++ (((if truthy orB then [gather orB] else []).flatten).map Value.vStr) := by
  by_cases ht : truthy orB
  · rw [if_pos ht, if_pos ht]
    simp
  · rw [if_neg ht, if_neg ht]
    simp

theorem handleOrPart_eq (block : Value) (yesArr : List Value) :
    handleOrPart block yesArr =
      yesArr ++ ((orGroupsOf block).filter (fun g => !g.isEmpty)).map
        (fun g => Value.vList (g.map Value.vStr)) := by
  unfold handleOrPart orGroupsOf
  cases hor : getProp block "OR" with
  | none => simp
  | some orB =>
    cases orB with
    | vList orBlocks => exact handle_or_fold orBlocks yesArr
    | vNull => exact single_or_branch _ yesArr
    | vBool b => exact single_or_branch _ yesArr
    | vNum lit => exact single_or_branch _ yesArr
    | vStr s2 => exact single_or_branch _ yesArr
    | vObj fs => exact single_or_branch _ yesArr

theorem cultureOrPart_eq (block : Value) (yesArr : List Value) :
    cultureOrPart block yesArr =
      yesArr ++ ((orGroupsOf block).flatten).map Value.vStr := by
  unfold cultureOrPart orGroupsOf
  cases hor : getProp block "OR" with
  | none => simp
  | some orB =>
    cases orB with
    | vList orBlocks => exact culture_or_fold orBlocks yesArr
    | vNull => exact culture_single_or_branch _ yesArr
    | vBool b => exact culture_single_or_branch _ yesArr
    | vNum lit => exact culture_single_or_branch _ yesArr
    | vStr s2 => exact culture_single_or_branch _ yesArr
    | vObj fs => exact culture_single_or_branch _ yesArr

theorem handleNorNotPart_eq (block : Value) (noArr : List String) :
    handleNorNotPart block noArr = noArr ++ norNotOf block := by
  unfold handleNorNotPart norNotOf
  cases hnor : getProp block "NOR" with
  | none =>
    cases hnot : getProp block "NOT" with
    | none => simp
    | some notB =>
      dsimp only
      by_cases h : truthy notB
      · rw [if_pos h]
        simp [h]
      · rw [if_neg h]
        simp [h]
  | some norB =>
    cases hnot : getProp block "NOT" with
    | none =>
      dsimp only
      by_cases h : truthy norB
      · rw [if_pos h]
        simp [h]
      · rw [if_neg h]
        simp [h]
    | some notB =>
      dsimp only
      by_cases h1 : truthy norB <;> by_cases h2 : truthy notB
      · rw [if_pos h1, if_pos h2]
        simp [h1, h2, List.append_assoc]
      · rw [if_pos h1, if_neg h2]
        simp [h1, h2]
      · rw [if_neg h1, if_pos h2]
        simp [h1, h2]
      · rw [if_neg h1, if_neg h2]
        simp [h1, h2]

theorem handleValuePart_eq (block : Value) (yesArr : List Value) :
    handleValuePart block yesArr =
      yesArr ++ (valueAtomsOf block).map Value.vStr := by
  unfold handleValuePart valueAtomsOf
  cases hval : getProp block "value" with
  | none => simp
  | some valB =>
    by_cases h : truthy valB <;> simp [h]

/-- **C3 (amended).**  On a truthy facet block, `_handle` appends each
non-empty `OR` group as one AlternativeGroup element (empty groups dropped,
groups never flattened) followed by the bare `value` atoms, and appends the
`NOR`/`NOT` identifiers flat to the forbidden list; `_handleCulture` —
used for the `graphical_culture` facet — instead spreads every `OR` group
into individual bare atoms. -/
theorem handle_group_semantics (block : Value) (yesArr : List Value)
    (noArr : List String) (htr : truthy block = true) :
    jsHandle block yesArr noArr =
      (yesArr ++ ((orGroupsOf block).filter (fun g => !g.isEmpty)).map
          (fun g => Value.vList (g.map Value.vStr)) ++
        (valueAtomsOf block).map Value.vStr,
       noArr ++ norNotOf block) ∧
    jsHandleCulture block yesArr noArr =
      (yesArr ++ ((orGroupsOf block).flatten).map Value.vStr ++
        (valueAtomsOf block).map Value.vStr,
       noArr ++ norNotOf block) := by
  unfold jsHandle jsHandleCulture
  rw [htr]
  simp only [Bool.true_eq_false, if_false]
  rw [handleOrPart_eq, cultureOrPart_eq, handleValuePart_eq, handleValuePart_eq,
    handleNorNotPart_eq]
  exact ⟨rfl, rfl⟩

/-- Witness for the amended C3 at a concrete block: a two-identifier `OR`
group stays one group under `_handle` and is spread under `_handleCulture`. -/
theorem handle_group_semantics_witness :
    jsHandle (Value.vObj [("OR", Value.vObj [("value",
        Value.vList [Value.vStr "a", Value.vStr "b"])])]) [] [] =
      ([Value.vList [Value.vStr "a", Value.vStr "b"]], []) ∧
    jsHandleCulture (Value.vObj [("OR", Value.vObj [("value",
        Value.vList [Value.vStr "a", Value.vStr "b"])])]) [] [] =
      ([Value.vStr "a", Value.vStr "b"], []) := by
  have h := handle_group_semantics (Value.vObj [("OR", Value.vObj [("value",
      Value.vList [Value.vStr "a", Value.vStr "b"])])]) [] [] rfl
  exact ⟨h.1.trans (by rfl), h.2.trans (by rfl)⟩

/-- C3 as stated is false on the code: for the `graphical_culture` facet an
`OR` group of two cultures is flattened into two bare atoms — the emitted
culture list of this civic contains no AlternativeGroup at all. -/
theorem culture_or_group_flattened_counterexample :
    lookupA (civicsBuild [("c", Value.vObj [("potential", Value.vObj
        [("graphical_culture", Value.vObj [("OR", Value.vObj [("value",
          Value.vList [Value.vStr "c1", Value.vStr "c2"])])])])])] none) "c" =
      some (CDef.mk ⟨[], [], [], [], [Value.vStr "c1", Value.vStr "c2"]⟩
        ⟨[], [], [], [], []⟩) ∧
    (∀ g : List Value, Value.vList g ∉ [Value.vStr "c1", Value.vStr "c2"]) := by
  refine ⟨rfl, ?_⟩
  intro g hg
  rcases List.mem_cons.mp hg with h | h
  · exact Value.noConfusion h
  · rcases List.mem_cons.mp h with h2 | h2
    · exact Value.noConfusion h2
    · exact absurd h2 (List.not_mem_nil _)

/-! ## C4: list-vs-mapping resolution of a parsed block -/

theorem lookupField_eq (l : List (String × Value)) (k : String) :
    lookupField l k = lookupA l k := by
  induction l with
  | nil => rfl
  | cons e rest ih => simp only [lookupField, lookupA, ih]

theorem setKey_eq (l : List (String × Value)) (k : String) (v : Value) :
    setKey l k v = setKeyA l k v := by
  induction l with
  | nil => rfl
  | cons e rest ih => simp only [setKey, setKeyA, ih]

theorem setKey_lookup (l : List (String × Value)) (k a : String) (v : Value) :
    lookupField (setKey l k v) a = if k = a then some v else lookupField l a := by
  simp only [setKey_eq, lookupField_eq, setKeyA_lookup]

theorem lookupField_append (l1 l2 : List (String × Value)) (k : String) :
    lookupField (l1 ++ l2) k =
      match lookupField l1 k with
      | some v => some v
      | none => lookupField l2 k := by
  simp only [lookupField_eq]
  cases h : lookupA l1 k with
  | some v => simp [lookupA_append, h]
  | none => simp [lookupA_append, h]

theorem setKey_fresh (l : List (String × Value)) (k : String) (v : Value)
    (h : lookupField l k = none) : setKey l k v = l ++ [(k, v)] := by
  induction l with
  | nil => rfl
  | cons e rest ih =>
    simp only [lookupField] at h
    by_cases he : e.1 = k
    · rw [if_pos he] at h
      exact absurd h (by simp)
    · rw [if_neg he] at h
      simp only [setKey, List.cons_append]
      rw [if_neg he, ih h]

/-- **C4.** For every block scanned by `_parseBlock` (keyed entries `obj`,
bare items `list`), the block's value handed to `_parseValue` is
`resolveBlock obj list`: the ordered bare-item list when no keyed
assignments were collected, the mapping alone when no bare items were
collected, and otherwise the mapping with the bare-item sequence written
under the reserved key `items`.  When the source did not itself assign an
`items` key no collected data is discarded: every keyed entry and the full
bare-item sequence appear in the result.  (A source-assigned `items` key is
overwritten by that write — see the counterexample, which corrects the
claim's unconditional "no data from the block's source is discarded".) -/
theorem parseBlock_resolution (fuel : Nat) (toks rest : List Token)
    (obj : List (String × Value)) (list : List Value)
    (h : jsParseBlockRaw fuel [] [] toks = some ((obj, list), rest)) :
    jsParseValue (fuel + 1) (Token.lbrace :: toks) =
      some (resolveBlock obj list, rest) ∧
    (obj = [] → resolveBlock obj list = Value.vList list) ∧
    (obj ≠ [] → list = [] → resolveBlock obj list = Value.vObj obj) ∧
    (obj ≠ [] → list ≠ [] →
      resolveBlock obj list = Value.vObj (setKey obj "items" (Value.vList list)) ∧
      (lookupField obj "items" = none →
        (∀ kv ∈ obj, kv ∈ setKey obj "items" (Value.vList list)) ∧
        ("items", Value.vList list) ∈ setKey obj "items" (Value.vList list))) := by
  refine ⟨?_, ?_, ?_, ?_⟩
  · simp only [jsParseValue, h]
  · intro ho
    subst ho
    simp [resolveBlock]
  · intro ho hl
    subst hl
    simp [resolveBlock, List.isEmpty_iff, ho]
  · intro ho hl
    refine ⟨by simp [resolveBlock, List.isEmpty_iff, ho, hl], ?_⟩
    intro hitems
    rw [setKey_fresh obj "items" (Value.vList list) hitems]
    constructor
    · intro kv hkv
      exact List.mem_append_left _ hkv
    · exact List.mem_append_right _ (List.mem_singleton.mpr rfl)

theorem parseBlock_resolution_witness :
    jsParseBlockRaw 9 [] [] [Token.word "a", Token.eq, Token.num "1",
        Token.word "b", Token.word "c", Token.rbrace] =
      some (([("a", Value.vNum "1")], [Value.vStr "b", Value.vStr "c"]), []) ∧
    resolveBlock [("a", Value.vNum "1")] [Value.vStr "b", Value.vStr "c"] =
      Value.vObj [("a", Value.vNum "1"),
        ("items", Value.vList [Value.vStr "b", Value.vStr "c"])] ∧
    ("items", Value.vList [Value.vStr "b", Value.vStr "c"]) ∈
      setKey [("a", Value.vNum "1")] "items"
        (Value.vList [Value.vStr "b", Value.vStr "c"]) := by
  have h := (parseBlock_resolution 9 [Token.word "a", Token.eq, Token.num "1",
      Token.word "b", Token.word "c", Token.rbrace] []
      [("a", Value.vNum "1")] [Value.vStr "b", Value.vStr "c"] rfl).2.2.2
      (by simp) (by simp)
  exact ⟨rfl, h.1.trans rfl, (h.2 rfl).2⟩

/-- C4's "in every case no data from the block's source is discarded" is
false: in `k = \x7b items = x a b \x7d` the keyed assignment `items = x` is
collected, but the end-of-block write of the bare-item sequence overwrites
that slot, and `x` is gone from the result. -/
theorem parseBlock_items_overwrite_counterexample :
    jsParseBlockRaw 9 [] [] [Token.word "items", Token.eq, Token.word "x",
        Token.word "a", Token.word "b", Token.rbrace] =
      some (([("items", Value.vStr "x")],
        [Value.vStr "a", Value.vStr "b"]), []) ∧
    parse "k = \x7b items = x a b \x7d" =
      [("k", Value.vObj [("items",
        Value.vList [Value.vStr "a", Value.vStr "b"])])] ∧
    ("items", Value.vStr "x") ∉
      [("items", Value.vList [Value.vStr "a", Value.vStr "b"])] := by
  refine ⟨rfl, rfl, ?_⟩
  intro hm
  rw [List.mem_singleton] at hm
  exact Value.noConfusion (congrArg Prod.snd hm)

/-! ## C5: duplicate-key coalescing in `_assign` -/

theorem jsAssign_fresh (o : List (String × Value)) (k : String) (x : Value)
    (h : lookupField o k = none) : jsAssign o k x = o ++ [(k, x)] := by
  unfold jsAssign
  rw [h]

theorem jsAssign_grow (o : List (String × Value)) (k : String) (x : Value)
    (xs : List Value) (h : lookupField o k = some (Value.vList xs)) :
    jsAssign o k x = setKey o k (Value.vList (xs ++ [x])) := by
  unfold jsAssign
  rw [h]

theorem jsAssign_pair (o : List (String × Value)) (k : String) (x w : Value)
    (h : lookupField o k = some w) (hw : jsIsArray w = false) :
    jsAssign o k x = setKey o k (Value.vList [w, x]) := by
  unfold jsAssign
  rw [h]
  cases w <;> (try rfl) <;> simp [jsIsArray] at hw

theorem jsAssign_other (o : List (String × Value)) (k1 k : String) (x : Value)
    (h : k1 ≠ k) : lookupField (jsAssign o k1 x) k = lookupField o k := by
  unfold jsAssign
  cases hl : lookupField o k1 with
  | none =>
    show lookupField (o ++ [(k1, x)]) k = lookupField o k
    rw [lookupField_append]
    cases lookupField o k with
    | some v => rfl
    | none => simp [lookupField, h]
  | some w =>
    cases w <;> (dsimp only; rw [setKey_lookup, if_neg h])

theorem assign_fold_grow (vs : List Value) (k : String) :
    ∀ (obj : List (String × Value)) (acc : List Value),
    lookupField obj k = some (Value.vList acc) →
    lookupField (vs.foldl (fun o x => jsAssign o k x) obj) k =
      some (Value.vList (acc ++ vs)) := by
  induction vs with
  | nil =>
    intro obj acc h
    simpa using h
  | cons x vs ih =>
    intro obj acc h
    rw [List.foldl_cons, jsAssign_grow obj k x acc h]
    have h2 : lookupField (setKey obj k (Value.vList (acc ++ [x]))) k =
        some (Value.vList (acc ++ [x])) := by
      rw [setKey_lookup, if_pos rfl]
    rw [ih _ _ h2, List.append_assoc, List.singleton_append]

/-- **C5.** `_assign` coalescing on a key `k` not yet bound, whose first
assigned value is not itself an array: assigning `v1, v2, vs...` in order
binds `k` to the ordered sequence `v1 :: v2 :: vs` — the second assignment
converts the single value into a sequence and each later one appends — and
an assignment to any other key leaves `k`'s binding untouched.  (When the
first value IS an array — a `\x7b ... \x7d` block of bare words — later
values are appended into that same array rather than forming a fresh outer
sequence, so three assignments need not yield three elements: see the
counterexample.) -/
theorem assign_coalescing (k : String) (v1 v2 : Value) (vs : List Value)
    (obj : List (String × Value))
    (hk : lookupField obj k = none) (h1 : jsIsArray v1 = false) :
    lookupField ((v1 :: v2 :: vs).foldl (fun o x => jsAssign o k x) obj) k =
      some (Value.vList (v1 :: v2 :: vs)) ∧
    (∀ k1 x, k1 ≠ k →
      lookupField (jsAssign obj k1 x) k = lookupField obj k) := by
  constructor
  · rw [List.foldl_cons, jsAssign_fresh obj k v1 hk]
    have ha : lookupField (obj ++ [(k, v1)]) k = some v1 := by
      rw [lookupField_append, hk]
      simp [lookupField]
    rw [List.foldl_cons, jsAssign_pair _ _ _ _ ha h1]
    have hb : lookupField (setKey (obj ++ [(k, v1)]) k
        (Value.vList [v1, v2])) k = some (Value.vList [v1, v2]) := by
      rw [setKey_lookup, if_pos rfl]
    rw [assign_fold_grow vs k _ _ hb]
    rfl
  · intro k1 x hne
    exact jsAssign_other obj k1 k x hne

theorem assign_coalescing_witness :
    lookupField ([Value.vStr "a", Value.vStr "b", Value.vStr "c"].foldl
        (fun o x => jsAssign o "k" x) []) "k" =
      some (Value.vList [Value.vStr "a", Value.vStr "b", Value.vStr "c"]) :=
  (assign_coalescing "k" (Value.vStr "a") (Value.vStr "b") [Value.vStr "c"] []
    rfl rfl).1

/-- C5 as stated is false when the first value assigned to `k` is an array:
in `k = \x7b a b \x7d k = c k = d` the three assignments to `k` yield a
FOUR-element sequence (the later scalars are absorbed into the first
array), not the three-element sequence the claim demands. -/
theorem assign_array_absorb_counterexample :
    parse "k = \x7b a b \x7d k = c k = d" =
      [("k", Value.vList [Value.vStr "a", Value.vStr "b",
        Value.vStr "c", Value.vStr "d"])] ∧
    ∀ (x y z : Value),
      [Value.vStr "a", Value.vStr "b", Value.vStr "c", Value.vStr "d"] ≠
        [x, y, z] := by
  refine ⟨rfl, ?_⟩
  intro x y z h
  have hlen := congrArg List.length h
  simp at hlen

/-! ## C6: parser totality on malformed input -/

theorem blockRaw_step (fuel : Nat)
    (obj obj' : List (String × Value)) (list list' : List Value)
    (toks toks' : List Token)
    (hstep : jsParseBlockRaw (fuel + 1) obj list toks =
      jsParseBlockRaw fuel obj' list' toks')
    (hlt : toks'.length < fuel) (hle2 : toks'.length ≤ toks.length)
    (ih : ∀ (obj : List (String × Value)) (list : List Value)
      (toks : List Token), toks.length < fuel →
      ∃ ol r, jsParseBlockRaw fuel obj list toks = some (ol, r) ∧
        r.length ≤ toks.length) :
    ∃ ol r, jsParseBlockRaw (fuel + 1) obj list toks = some (ol, r) ∧
      r.length ≤ toks.length := by
  obtain ⟨ol, r, hB, hle⟩ := ih obj' list' toks' hlt
  exact ⟨ol, r, hstep.trans hB, le_trans hle hle2⟩

theorem top_step (fuel : Nat) (out out' : List (String × Value))
    (toks toks' : List Token)
    (hstep : jsParseTop (fuel + 1) out toks = jsParseTop fuel out' toks')
    (hlt : toks'.length < fuel)
    (ih : ∀ (out : List (String × Value)) (toks : List Token),
      toks.length < fuel → ∃ o, jsParseTop fuel out toks = some o) :
    ∃ o, jsParseTop (fuel + 1) out toks = some o := by
  obtain ⟨o, hT⟩ := ih out' toks' hlt
  exact ⟨o, hstep.trans hT⟩

theorem parse_fuel (fuel : Nat) :
    (∀ toks : List Token, toks.length < fuel →
      ∃ v r, jsParseValue fuel toks = some (v, r) ∧ r.length ≤ toks.length) ∧
    (∀ (obj : List (String × Value)) (list : List Value)
      (toks : List Token), toks.length < fuel →
      ∃ ol r, jsParseBlockRaw fuel obj list toks = some (ol, r) ∧
        r.length ≤ toks.length) ∧
    (∀ (out : List (String × Value)) (toks : List Token),
      toks.length < fuel → ∃ o, jsParseTop fuel out toks = some o) := by
  induction fuel with
  | zero =>
    refine ⟨?_, ?_, ?_⟩
    · intro toks h
      exact absurd h (Nat.not_lt_zero _)
    · intro obj list toks h
      exact absurd h (Nat.not_lt_zero _)
    · intro out toks h
      exact absurd h (Nat.not_lt_zero _)
  | succ fuel ih =>
    obtain ⟨ihV, ihB, ihT⟩ := ih
    refine ⟨?_, ?_, ?_⟩
    · intro toks hlen
      cases toks with
      | nil => exact ⟨Value.vNull, [], rfl, Nat.le_refl _⟩
      | cons t rest =>
        simp only [List.length_cons] at hlen
        cases t with
        | lbrace =>
          obtain ⟨ol, r, hB, hle⟩ := ihB [] [] rest (by omega)
          refine ⟨resolveBlock ol.1 ol.2, r, ?_, ?_⟩
          · simp only [jsParseValue, hB]
          · simp only [List.length_cons]
            omega
        | rbrace =>
          exact ⟨Value.vStr "\x7d", rest, rfl,
            by simp only [List.length_cons]; omega⟩
        | eq =>
          exact ⟨Value.vStr "=", rest, rfl,
            by simp only [List.length_cons]; omega⟩
        | str s =>
          exact ⟨Value.vStr s, rest, rfl,
            by simp only [List.length_cons]; omega⟩
        | num lit =>
          exact ⟨Value.vNum lit, rest, rfl,
            by simp only [List.length_cons]; omega⟩
        | word w =>
          exact ⟨wordValue w, rest, rfl,
            by simp only [List.length_cons]; omega⟩
        | op o =>
          exact ⟨Value.vStr o, rest, rfl,
            by simp only [List.length_cons]; omega⟩
    · intro obj list toks hlen
      cases toks with
      | nil => exact ⟨(obj, list), [], rfl, Nat.le_refl _⟩
      | cons t rest =>
        simp only [List.length_cons] at hlen
        cases t with
        | rbrace =>
          exact ⟨(obj, list), rest, rfl,
            by simp only [List.length_cons]; omega⟩
        | lbrace =>
          obtain ⟨ol1, r1, hB1, hle1⟩ := ihB [] [] rest (by omega)
          have hstep : jsParseBlockRaw (fuel + 1) obj list
              (Token.lbrace :: rest) =
              jsParseBlockRaw fuel obj
                (list ++ [resolveBlock ol1.1 ol1.2]) r1 := by
            simp only [jsParseBlockRaw, hB1]
          obtain ⟨ol, r, hB, hle⟩ := ihB obj
            (list ++ [resolveBlock ol1.1 ol1.2]) r1 (by omega)
          exact ⟨ol, r, hstep.trans hB,
            by simp only [List.length_cons]; omega⟩
        | str s =>
          refine blockRaw_step fuel obj _ list _ _ _ rfl ?_ ?_ ihB <;>
            (try simp only [List.length_cons]) <;> omega
        | num lit =>
          refine blockRaw_step fuel obj _ list _ _ _ rfl ?_ ?_ ihB <;>
            (try simp only [List.length_cons]) <;> omega
        | op o =>
          refine blockRaw_step fuel obj _ list _ _ _ rfl ?_ ?_ ihB <;>
            (try simp only [List.length_cons]) <;> omega
        | eq =>
          refine blockRaw_step fuel obj _ list _ _ _ rfl ?_ ?_ ihB <;>
            (try simp only [List.length_cons]) <;> omega
        | word name =>
          cases rest with
          | nil =>
            refine blockRaw_step fuel obj _ list _ _ _ rfl ?_ ?_ ihB <;>
              (try simp only [List.length_nil, List.length_cons]) <;> omega
          | cons t2 rest2 =>
            simp only [List.length_cons] at hlen
            cases t2 with
            | eq =>
              obtain ⟨v, r1, hV, hle1⟩ := ihV rest2 (by omega)
              have hstep : jsParseBlockRaw (fuel + 1) obj list
                  (Token.word name :: Token.eq :: rest2) =
                  jsParseBlockRaw fuel (jsAssign obj name v) list r1 := by
                simp only [jsParseBlockRaw, hV]
              obtain ⟨ol, r, hB, hle⟩ := ihB (jsAssign obj name v) list r1
                (by omega)
              exact ⟨ol, r, hstep.trans hB,
                by simp only [List.length_cons]; omega⟩
            | lbrace =>
              obtain ⟨ol1, r1, hB1, hle1⟩ := ihB [] [] rest2 (by omega)
              have hstep : jsParseBlockRaw (fuel + 1) obj list
                  (Token.word name :: Token.lbrace :: rest2) =
                  jsParseBlockRaw fuel
                    (jsAssign obj name (resolveBlock ol1.1 ol1.2)) list
                    r1 := by
                simp only [jsParseBlockRaw, hB1]
              obtain ⟨ol, r, hB, hle⟩ := ihB
                (jsAssign obj name (resolveBlock ol1.1 ol1.2)) list r1
                (by omega)
              exact ⟨ol, r, hstep.trans hB,
                by simp only [List.length_cons]; omega⟩
            | op o =>
              cases rest2 with
              | nil =>
                refine blockRaw_step fuel obj _ list _ _ _ rfl ?_ ?_ ihB <;>
                  (try simp only [List.length_nil, List.length_cons]) <;>
                    omega
              | cons t3 rest3 =>
                simp only [List.length_cons] at hlen
                cases t3 <;>
                  refine blockRaw_step fuel obj _ list _ _ _ rfl ?_ ?_
                    ihB <;>
                    (try simp only [List.length_cons]) <;> omega
            | word w2 =>
              refine blockRaw_step fuel obj _ list _ _ _ rfl ?_ ?_ ihB <;>
                (try simp only [List.length_cons]) <;> omega
            | str s2 =>
              refine blockRaw_step fuel obj _ list _ _ _ rfl ?_ ?_ ihB <;>
                (try simp only [List.length_cons]) <;> omega
            | num l2 =>
              refine blockRaw_step fuel obj _ list _ _ _ rfl ?_ ?_ ihB <;>
                (try simp only [List.length_cons]) <;> omega
            | rbrace =>
              refine blockRaw_step fuel obj _ list _ _ _ rfl ?_ ?_ ihB <;>
                (try simp only [List.length_cons]) <;> omega
    · intro out toks hlen
      cases toks with
      | nil => exact ⟨out, rfl⟩
      | cons t rest =>
        simp only [List.length_cons] at hlen
        cases t with
        | word name =>
          cases rest with
          | nil =>
            refine top_step fuel out _ _ _ rfl ?_ ihT
            simp only [List.length_nil]
            omega
          | cons t2 rest2 =>
            simp only [List.length_cons] at hlen
            cases t2 with
            | eq =>
              obtain ⟨v, r1, hV, hle1⟩ := ihV rest2 (by omega)
              have hstep : jsParseTop (fuel + 1) out
                  (Token.word name :: Token.eq :: rest2) =
                  jsParseTop fuel (jsAssign out name v) r1 := by
                simp only [jsParseTop, hV]
              obtain ⟨o, hT⟩ := ihT (jsAssign out name v) r1 (by omega)
              exact ⟨o, hstep.trans hT⟩
            | lbrace =>
              refine top_step fuel out _ _ _ rfl ?_ ihT
              simp only [List.length_cons]
              omega
            | rbrace =>
              refine top_step fuel out _ _ _ rfl ?_ ihT
              simp only [List.length_cons]
              omega
            | word w2 =>
              refine top_step fuel out _ _ _ rfl ?_ ihT
              simp only [List.length_cons]
              omega
            | str s2 =>
              refine top_step fuel out _ _ _ rfl ?_ ihT
              simp only [List.length_cons]
              omega
            | num l2 =>
              refine top_step fuel out _ _ _ rfl ?_ ihT
              simp only [List.length_cons]
              omega
            | op o2 =>
              refine top_step fuel out _ _ _ rfl ?_ ihT
              simp only [List.length_cons]
              omega
        | lbrace =>
          refine top_step fuel out _ _ _ rfl ?_ ihT
          omega
        | rbrace =>
          refine top_step fuel out _ _ _ rfl ?_ ihT
          omega
        | eq =>
          refine top_step fuel out _ _ _ rfl ?_ ihT
          omega
        | str s =>
          refine top_step fuel out _ _ _ rfl ?_ ihT
          omega
        | num lit =>
          refine top_step fuel out _ _ _ rfl ?_ ihT
          omega
        | op o =>
          refine top_step fuel out _ _ _ rfl ?_ ihT
          omega

/-- **C6.** `ParadoxParser.parse` is total: with fuel strictly above the
number of remaining tokens every layer of the recursive-descent parser
returns a result (end-of-input acts as an implicit block close), and the
top-level loop is run with fuel exceeding the token count, so `parse`
always yields a mapping.  Concrete malformed inputs degrade gracefully: an
unbalanced `\x7b`, a trailing `=` with no following value, and a truncated
quoted string each produce best-effort output instead of failing. -/
theorem parse_total :
    (∀ s : String, (parseChars s.toList).isSome) ∧
    parse "a = \x7b b" = [("a", Value.vList [Value.vStr "b"])] ∧
    parse "a =" = [("a", Value.vNull)] ∧
    parse "x = \"ab" = [("x", Value.vStr "ab")] := by
  refine ⟨?_, rfl, rfl, rfl⟩
  intro s
  obtain ⟨o, hT⟩ := (parse_fuel
      ((tokenize (stripC (normNL s.toList) false 0)).length + 1)).2.2 []
      (tokenize (stripC (normNL s.toList) false 0)) (Nat.lt_succ_self _)
  simp only [parseChars]
  rw [hT]
  rfl

/-! ## C7: per-facet deduplication -/

theorem primEq_refl (v : Value) (h : isPrimV v = true) : primEq v v = true := by
  cases v <;> simp [primEq, isPrimV] at h ⊢

theorem primEq_prim (a b : Value) (h : primEq a b = true) :
    isPrimV a = true ∧ isPrimV b = true := by
  cases a <;> cases b <;> simp [primEq, isPrimV] at h ⊢

theorem primEq_symm (a b : Value) : primEq a b = primEq b a := by
  cases a <;> cases b <;> (try rfl) <;> exact decide_eq_decide.mpr eq_comm

theorem jsSetDedupGo_sublist (l : List Value) :
    ∀ seen : List Value, (jsSetDedupGo l seen).Sublist l := by
  induction l with
  | nil =>
    intro seen
    simp [jsSetDedupGo]
  | cons a rest ih =>
    intro seen
    simp only [jsSetDedupGo]
    by_cases hp : isPrimV a = true
    · rw [if_pos hp]
      by_cases hs : seen.any (primEq a) = true
      · rw [if_pos hs]
        exact (ih seen).cons a
      · rw [if_neg hs]
        exact (ih (a :: seen)).cons₂ a
    · rw [if_neg hp]
      exact (ih seen).cons₂ a

theorem jsSetDedupGo_keeps_nonprim (l : List Value) :
    ∀ (seen : List Value) (v : Value), v ∈ l → isPrimV v = false →
      v ∈ jsSetDedupGo l seen := by
  induction l with
  | nil =>
    intro seen v hv _
    exact absurd hv (List.not_mem_nil v)
  | cons a rest ih =>
    intro seen v hv hnp
    simp only [jsSetDedupGo]
    rcases List.mem_cons.mp hv with rfl | h
    · rw [if_neg (show ¬ isPrimV v = true by simp [hnp])]
      exact List.mem_cons_self v _
    · by_cases hp : isPrimV a = true
      · rw [if_pos hp]
        by_cases hs : seen.any (primEq a) = true
        · rw [if_pos hs]
          exact ih seen v h hnp
        · rw [if_neg hs]
          exact List.mem_cons_of_mem a (ih (a :: seen) v h hnp)
      · rw [if_neg hp]
        exact List.mem_cons_of_mem a (ih seen v h hnp)

theorem jsSetDedupGo_prim_rep (l : List Value) :
    ∀ (seen : List Value) (v : Value), v ∈ l → isPrimV v = true →
      (∃ w ∈ jsSetDedupGo l seen, primEq v w = true) ∨
        seen.any (primEq v) = true := by
  induction l with
  | nil =>
    intro seen v hv _
    exact absurd hv (List.not_mem_nil v)
  | cons a rest ih =>
    intro seen v hv hp
    simp only [jsSetDedupGo]
    rcases List.mem_cons.mp hv with rfl | h
    · rw [if_pos hp]
      by_cases hs : seen.any (primEq v) = true
      · rw [if_pos hs]
        exact Or.inr hs
      · rw [if_neg hs]
        exact Or.inl ⟨v, List.mem_cons_self v _, primEq_refl v hp⟩
    · by_cases hpa : isPrimV a = true
      · rw [if_pos hpa]
        by_cases hs : seen.any (primEq a) = true
        · rw [if_pos hs]
          exact ih seen v h hp
        · rw [if_neg hs]
          rcases ih (a :: seen) v h hp with ⟨w, hw, hpe⟩ | hany
          · exact Or.inl ⟨w, List.mem_cons_of_mem a hw, hpe⟩
          · rw [List.any_cons, Bool.or_eq_true] at hany
            rcases hany with h1 | h2
            · exact Or.inl ⟨a, List.mem_cons_self a _, h1⟩
            · exact Or.inr h2
      · rw [if_neg hpa]
        rcases ih seen v h hp with ⟨w, hw, hpe⟩ | hany
        · exact Or.inl ⟨w, List.mem_cons_of_mem a hw, hpe⟩
        · exact Or.inr hany

theorem jsSetDedupGo_fresh (l : List Value) :
    ∀ (seen : List Value) (w : Value), w ∈ jsSetDedupGo l seen →
      isPrimV w = true → seen.any (primEq w) = false := by
  induction l with
  | nil =>
    intro seen w hw _
    simp [jsSetDedupGo] at hw
  | cons a rest ih =>
    intro seen w hw hp
    simp only [jsSetDedupGo] at hw
    by_cases hpa : isPrimV a = true
    · rw [if_pos hpa] at hw
      by_cases hs : seen.any (primEq a) = true
      · rw [if_pos hs] at hw
        exact ih seen w hw hp
      · rw [if_neg hs] at hw
        rcases List.mem_cons.mp hw with rfl | h
        · simp only [Bool.not_eq_true] at hs
          exact hs
        · have h2 := ih (a :: seen) w h hp
          simp only [List.any_cons, Bool.or_eq_false_iff] at h2
          exact h2.2
    · rw [if_neg hpa] at hw
      rcases List.mem_cons.mp hw with rfl | h
      · exact absurd hp hpa
      · exact ih seen w h hp

theorem jsSetDedupGo_pairwise (l : List Value) :
    ∀ seen : List Value,
      List.Pairwise (fun a b => isPrimV a = true → primEq a b = false)
        (jsSetDedupGo l seen) := by
  induction l with
  | nil =>
    intro seen
    simp [jsSetDedupGo]
  | cons a rest ih =>
    intro seen
    simp only [jsSetDedupGo]
    by_cases hpa : isPrimV a = true
    · rw [if_pos hpa]
      by_cases hs : seen.any (primEq a) = true
      · rw [if_pos hs]
        exact ih seen
      · rw [if_neg hs]
        refine List.Pairwise.cons ?_ (ih (a :: seen))
        intro b hb hpa2
        cases hpe : primEq a b with
        | false => rfl
        | true =>
          have hpb : isPrimV b = true := (primEq_prim a b hpe).2
          have hfresh := jsSetDedupGo_fresh rest (a :: seen) b hb hpb
          simp only [List.any_cons, Bool.or_eq_false_iff] at hfresh
          rw [primEq_symm a b, hfresh.1] at hpe
          exact Bool.noConfusion hpe
    · rw [if_neg hpa]
      refine List.Pairwise.cons ?_ (ih seen)
      intro b hb hpa2
      exact absurd hpa2 hpa

theorem dedupStrGo_not_mem_seen (l : List String) :
    ∀ (seen : List String) (w : String), w ∈ dedupStrGo l seen → w ∉ seen := by
  induction l with
  | nil =>
    intro seen w hw
    simp [dedupStrGo] at hw
  | cons a rest ih =>
    intro seen w hw
    simp only [dedupStrGo] at hw
    by_cases hs : a ∈ seen
    · rw [if_pos hs] at hw
      exact ih seen w hw
    · rw [if_neg hs] at hw
      rcases List.mem_cons.mp hw with rfl | h
      · exact hs
      · intro hmem
        exact ih (a :: seen) w h (List.mem_cons_of_mem a hmem)

theorem dedupStrGo_nodup (l : List String) :
    ∀ seen : List String, (dedupStrGo l seen).Nodup := by
  induction l with
  | nil =>
    intro seen
    simp [dedupStrGo]
  | cons a rest ih =>
    intro seen
    simp only [dedupStrGo]
    by_cases hs : a ∈ seen
    · rw [if_pos hs]
      exact ih seen
    · rw [if_neg hs]
      refine List.Pairwise.cons ?_ (ih (a :: seen))
      intro b hb
      have := dedupStrGo_not_mem_seen rest (a :: seen) b hb
      intro hab
      exact this (hab ▸ List.mem_cons_self a seen)

/-- **C7 (amended).** The `Set`-based dedup step itself matches the claim:
`jsSetDedup` keeps a subsequence of its input (first-occurrence order), never
removes a group (non-primitive) element, keeps a representative of every
primitive, and leaves no two `SameValueZero`-equal primitives; the string
forbidden lists are made duplicate-free likewise.  The builders apply this at
entry construction: a civic's deduplicated facet lists and an origin's
forbidden lists carry these properties.  (The claim fails for the FINAL
emitted lists: origins flattening re-introduces scalar duplicates after the
dedup, and the civics closure re-sorts forbidden-civics lists out of
first-occurrence order — see the counterexample.) -/
theorem dedup_spec (l : List Value) :
    ((jsSetDedup l).Sublist l ∧
     (∀ v ∈ l, isPrimV v = false → v ∈ jsSetDedup l) ∧
     (∀ v ∈ l, isPrimV v = true → ∃ w ∈ jsSetDedup l, primEq v w = true) ∧
     List.Pairwise (fun a b => isPrimV a = true → primEq a b = false)
       (jsSetDedup l)) ∧
    (∀ data : Value,
      List.Pairwise (fun a b => isPrimV a = true → primEq a b = false)
        ((civicsBuildEntry data).yes.civics) ∧
      ((civicsBuildEntry data).no.civics).Nodup) ∧
    (∀ (data : Value) (tl : Option (List (String × Value))),
      ((originsBuildEntry data tl).no.civics).Nodup) := by
  refine ⟨⟨jsSetDedupGo_sublist l [], ?_, ?_, jsSetDedupGo_pairwise l []⟩,
    ?_, ?_⟩
  · intro v hv hnp
    exact jsSetDedupGo_keeps_nonprim l [] v hv hnp
  · intro v hv hp
    rcases jsSetDedupGo_prim_rep l [] v hv hp with h | h
    · exact h
    · simp at h
  · intro data
    constructor
    · exact jsSetDedupGo_pairwise _ []
    · exact dedupStrGo_nodup _ []
  · intro data tl
    exact dedupStrGo_nodup _ []

theorem dedup_spec_witness :
    jsSetDedup [Value.vStr "a", Value.vStr "a", Value.vList [Value.vStr "a"],
      Value.vList [Value.vStr "a"]] =
      [Value.vStr "a", Value.vList [Value.vStr "a"],
        Value.vList [Value.vStr "a"]] ∧
    Value.vList [Value.vStr "a"] ∈
      jsSetDedup [Value.vStr "a", Value.vStr "a", Value.vList [Value.vStr "a"],
        Value.vList [Value.vStr "a"]] := by
  refine ⟨rfl, ?_⟩
  exact (dedup_spec [Value.vStr "a", Value.vStr "a",
      Value.vList [Value.vStr "a"], Value.vList [Value.vStr "a"]]).1.2.1
    (Value.vList [Value.vStr "a"])
    (List.mem_cons.mpr (Or.inr (List.mem_cons.mpr (Or.inr
      (List.mem_cons.mpr (Or.inl rfl)))))) rfl

/-- C7 as stated is false for the final emitted lists.  Origins: dedup runs
BEFORE single-element-group flattening, so `civics = \x7b OR = \x7b value = a
\x7d value = a \x7d` emits the duplicate scalar list `[a, a]`.  Civics: the
closure pass rewrites each forbidden-civics list as the SORTED contents of
its set, so declared order `[b, a]` is emitted as `[a, b]`, not
first-occurrence order. -/
theorem dedup_final_counterexample :
    (∃ d, lookupA (originsBuild
        [("o", Value.vObj [("potential", Value.vObj [("civics", Value.vObj
          [("OR", Value.vObj [("value", Value.vStr "a")]),
           ("value", Value.vStr "a")])])])] none none []) "o" = some d ∧
      d.yes.civics = [Value.vStr "a", Value.vStr "a"] ∧
      ¬ (d.yes.civics).Nodup) ∧
    (∃ d, lookupA (civicsBuild
        [("A", Value.vObj [("potential", Value.vObj [("civics", Value.vObj
          [("NOT", Value.vObj [("value",
            Value.vList [Value.vStr "b", Value.vStr "a"])])])])])]
        none) "A" = some d ∧
      d.no.civics = ["a", "b"] ∧ d.no.civics ≠ ["b", "a"]) := by
  constructor
  · refine ⟨ODef.mk ⟨[], [Value.vStr "a", Value.vStr "a"], [], [], [], []⟩
      ⟨[], [], [], [], [], []⟩, rfl, rfl, ?_⟩
    intro h
    exact (List.nodup_cons.mp h).1 (List.mem_cons_self _ _)
  · exact ⟨CDef.mk ⟨[], [], [], [], []⟩ ⟨[], ["a", "b"], [], [], []⟩,
      rfl, rfl, by decide⟩

/-! ## C8: single-element group flattening -/

theorem flatten1_mem_singleton (l : List Value) (x : Value)
    (h : Value.vList [x] ∈ l) : x ∈ flatten1 l :=
  List.mem_map.mpr ⟨Value.vList [x], h, rfl⟩

theorem flatten1_mem_other (l : List Value) (v : Value)
    (h : v ∈ l) (hnot : ∀ x, v ≠ Value.vList [x]) : v ∈ flatten1 l := by
  refine List.mem_map.mpr ⟨v, h, ?_⟩
  cases v with
  | vList xs =>
    match xs with
    | [] => rfl
    | [x] => exact absurd rfl (hnot x)
    | _ :: _ :: _ => rfl
  | vNull => rfl
  | vBool b => rfl
  | vNum n => rfl
  | vStr s => rfl
  | vObj fs => rfl

/-- **C8 (amended).** The origins flattening pass replaces each TOP-LEVEL
single-element group by its one element, keeps every other element (groups of
two or more stay grouped) and preserves length; it is applied to the required
facet lists only — the forbidden lists hold bare identifiers and are never
flattened — and the civics collection performs no flattening at all (a
one-identifier group survives `civicsBuild` verbatim).  The claim's "every
required AlternativeGroup containing exactly one identifier in an entity's
emitted RequirementSet is replaced" is too strong: flattening is one level
deep and runs once, so a group nested inside a trait-inherited group
resurfaces as a single-identifier group in the emitted set (see the
counterexample). -/
theorem flatten_single_groups (l : List Value) :
    ((∀ x, Value.vList [x] ∈ l → x ∈ flatten1 l) ∧
     (∀ v ∈ l, (∀ x, v ≠ Value.vList [x]) → v ∈ flatten1 l) ∧
     (flatten1 l).length = l.length) ∧
    (∀ yes : OFacets Value,
      (flattenYes yes).civics = flatten1 yes.civics ∧
      (flattenYes yes).species_archetype = flatten1 yes.species_archetype) ∧
    lookupA (originsBuild
        [("o", Value.vObj [("potential", Value.vObj [("civics", Value.vObj
          [("OR", Value.vObj [("value",
            Value.vList [Value.vStr "x"])])])])])] none none []) "o" =
      some (ODef.mk ⟨[], [Value.vStr "x"], [], [], [], []⟩
        ⟨[], [], [], [], [], []⟩) ∧
    lookupA (originsBuild
        [("o", Value.vObj [("potential", Value.vObj [("civics", Value.vObj
          [("OR", Value.vObj [("value", Value.vList [Value.vStr "x",
            Value.vStr "y"])])])])])] none none []) "o" =
      some (ODef.mk ⟨[], [Value.vList [Value.vStr "x", Value.vStr "y"]],
          [], [], [], []⟩ ⟨[], [], [], [], [], []⟩) ∧
    lookupA (civicsBuild
        [("c", Value.vObj [("potential", Value.vObj [("civics", Value.vObj
          [("OR", Value.vObj [("value",
            Value.vList [Value.vStr "x"])])])])])] none) "c" =
      some (CDef.mk ⟨[], [Value.vList [Value.vStr "x"]], [], [], []⟩
        ⟨[], [], [], [], []⟩) := by
  refine ⟨⟨?_, ?_, ?_⟩, ?_, rfl, rfl, rfl⟩
  · intro x h
    exact flatten1_mem_singleton l x h
  · intro v hv hnot
    exact flatten1_mem_other l v hv hnot
  · exact List.length_map l _
  · intro yes
    exact ⟨rfl, rfl⟩

theorem flatten_single_groups_witness :
    flatten1 [Value.vList [Value.vStr "p"],
        Value.vList [Value.vStr "q", Value.vStr "r"], Value.vStr "s"] =
      [Value.vStr "p", Value.vList [Value.vStr "q", Value.vStr "r"],
        Value.vStr "s"] ∧
    Value.vStr "p" ∈ flatten1 [Value.vList [Value.vStr "p"],
      Value.vList [Value.vStr "q", Value.vStr "r"], Value.vStr "s"] ∧
    Value.vList [Value.vStr "q", Value.vStr "r"] ∈
      flatten1 [Value.vList [Value.vStr "p"],
        Value.vList [Value.vStr "q", Value.vStr "r"], Value.vStr "s"] := by
  refine ⟨rfl, ?_, ?_⟩
  · exact (flatten_single_groups [Value.vList [Value.vStr "p"],
      Value.vList [Value.vStr "q", Value.vStr "r"], Value.vStr "s"]).1.1
      (Value.vStr "p") (List.mem_cons_self _ _)
  · refine (flatten_single_groups [Value.vList [Value.vStr "p"],
      Value.vList [Value.vStr "q", Value.vStr "r"], Value.vStr "s"]).1.2.1
      (Value.vList [Value.vStr "q", Value.vStr "r"])
      (List.mem_cons_of_mem _ (List.mem_cons_self _ _)) ?_
    intro x h
    have h2 : ([Value.vStr "q", Value.vStr "r"] : List Value) = [x] :=
      Value.vList.inj h
    have h3 := congrArg List.length h2
    simp at h3

/-- C8 as stated is false: flattening is one level deep, so a single-element
group nested inside a trait-inherited `allowed_archetypes` group survives in
the emitted RequirementSet as a required AlternativeGroup of exactly one
identifier. -/
theorem flatten_nested_group_counterexample :
    lookupA (originsBuild
        [("o", Value.vObj [("traits", Value.vObj [("trait",
          Value.vStr "t")])])]
        none (some [("t", Value.vObj [("allowed_archetypes",
          Value.vList [Value.vList [Value.vStr "A"]])])]) []) "o" =
      some (ODef.mk ⟨[], [], [], [], [Value.vList [Value.vStr "A"]], []⟩
        ⟨[], [], [], [], [], []⟩) ∧
    (∃ x, Value.vList [x] ∈ [Value.vList [Value.vStr "A"]]) :=
  ⟨rfl, ⟨Value.vStr "A", List.mem_cons_self _ _⟩⟩

end SDG
